import Mathlib

set_option maxRecDepth 16384

/-!
# doson — verification of the `DataValue` parser/printer library

Shallow embedding of the repository's two source files (`src/lib.rs`,
`src/binary.rs`).  Strings are modelled as `List Char`, byte sequences as
`List Nat` (each < 256), and Rust `f64` is modelled by `F64`: a tagged sum of
an exact rational (for finite doubles), NaN and the two infinities.  Rounding
of `f64` arithmetic is not modelled (rational arithmetic is exact); none of
the statements below depends on rounding.

External crates used by the source (`nom`, `base64`, Rust `std` UTF-8
validation) are modelled from the specification's description of them
(grammar in spec §4.4, standard base64 with mandatory padding per spec §8 S5,
UTF-8 per spec §4.5).
-/

namespace Doson

/-! ## Characters and small helpers -/

def strL (s : String) : List Char := s.toList

def isWsp (c : Char) : Bool := c = ' ' || c = '\t' || c = '\r' || c = '\n'

def dropWs (s : List Char) : List Char := s.dropWhile isWsp

def isDigitCh (c : Char) : Bool := '0' ≤ c && c ≤ '9'

def digitVal (c : Char) : Nat := c.toNat - 48

def digitChar (n : Nat) : Char := Char.ofNat (48 + n)

/-- Decimal digit string of a natural number, most significant digit first
(the digit form Rust's float `Display` emits for integral parts). -/
def natToString (n : Nat) : List Char :=
  if _h : n < 10 then [digitChar n]
  else natToString (n / 10) ++ [digitChar (n % 10)]
decreasing_by exact Nat.div_lt_self (by omega) (by omega)

/-- `tag` of nom: match an exact character sequence, return the remainder. -/
def tagP : List Char → List Char → Option (List Char)
  | [], s => some s
  | p :: ps, c :: cs => if c = p then tagP ps cs else none
  | _ :: _, [] => none

/-- `tag_no_case` of nom: ASCII-case-insensitive exact match. -/
def tagNoCase : List Char → List Char → Option (List Char)
  | [], s => some s
  | p :: ps, c :: cs => if c.toLower = p.toLower then tagNoCase ps cs else none
  | _ :: _, [] => none

/-! ## base64 (modelled from the spec: standard alphabet, padding required) -/

def b64Alphabet : List Char :=
  strL "ABCDEFGHIJKLMNOPQRSTUVWXYZabcdefghijklmnopqrstuvwxyz0123456789+/"

def b64Char (n : Nat) : Char := b64Alphabet.getD n 'A'

def b64Val (c : Char) : Option Nat := b64Alphabet.findIdx? (· = c)

/-- Standard base64 encoding of a byte list (the `base64::encode` collaborator). -/
def base64Encode : List Nat → List Char
  | [] => []
  | [b1] => [b64Char (b1 / 4), b64Char (b1 % 4 * 16), '=', '=']
  | [b1, b2] =>
    [b64Char (b1 / 4), b64Char (b1 % 4 * 16 + b2 / 16), b64Char (b2 % 16 * 4), '=']
  | b1 :: b2 :: b3 :: bs =>
    b64Char (b1 / 4) :: b64Char (b1 % 4 * 16 + b2 / 16) ::
    b64Char (b2 % 16 * 4 + b3 / 64) :: b64Char (b3 % 64) :: base64Encode bs

/-- Standard base64 decoding (the `base64::decode` collaborator).  Modelled
from the spec: canonical padding is required, so an input whose length is not
a multiple of four (e.g. `SGVsbG8`) fails. -/
def base64Decode : List Char → Option (List Nat)
  | [] => some []
  | c1 :: c2 :: c3 :: c4 :: rest =>
    match b64Val c1, b64Val c2 with
    | some v1, some v2 =>
      if c3 = '=' && c4 = '=' && rest.isEmpty then
        some [v1 * 4 + v2 / 16]
      else
        match b64Val c3 with
        | some v3 =>
          if c4 = '=' && rest.isEmpty then
            some [v1 * 4 + v2 / 16, v2 % 16 * 16 + v3 / 4]
          else
            match b64Val c4 with
            | some v4 =>
              (base64Decode rest).map
                (fun bs => (v1 * 4 + v2 / 16) :: (v2 % 16 * 16 + v3 / 4) ::
                           (v3 % 4 * 64 + v4) :: bs)
            | none => none
        | none => none
    | _, _ => none
  | _ => none

/-! ## UTF-8 (modelled from the spec: Rust `String::from_utf8` / `str` bytes) -/

def utf8EncodeChar (c : Char) : List Nat :=
  let n := c.toNat
  if n < 0x80 then [n]
  else if n < 0x800 then [0xC0 + n / 64, 0x80 + n % 64]
  else if n < 0x10000 then [0xE0 + n / 4096, 0x80 + n / 64 % 64, 0x80 + n % 64]
  else [0xF0 + n / 262144, 0x80 + n / 4096 % 64, 0x80 + n / 64 % 64, 0x80 + n % 64]

def utf8Encode (s : List Char) : List Nat := (s.map utf8EncodeChar).flatten

def isCont (b : Nat) : Bool := 0x80 ≤ b && b < 0xC0

def validCp (n : Nat) : Bool := n < 0xD800 || (0xE000 ≤ n && n < 0x110000)

mutual

/-- Validating UTF-8 decoder (Rust `String::from_utf8`): rejects truncated and
overlong sequences and surrogate code points. -/
def utf8Decode : List Nat → Option (List Char)
  | [] => some []
  | b0 :: bs =>
    if b0 < 0x80 then
      (utf8Decode bs).map (fun cs => Char.ofNat b0 :: cs)
    else if 0xC2 ≤ b0 && b0 < 0xE0 then utf8Dec2 b0 bs
    else if 0xE0 ≤ b0 && b0 < 0xF0 then utf8Dec3 b0 bs
    else if 0xF0 ≤ b0 && b0 < 0xF5 then utf8Dec4 b0 bs
    else none

/-- Continuation of a two-byte sequence. -/
def utf8Dec2 (b0 : Nat) : List Nat → Option (List Char)
  | b1 :: bs' =>
    if isCont b1 then
      (utf8Decode bs').map (fun cs => Char.ofNat ((b0 - 0xC0) * 64 + (b1 - 0x80)) :: cs)
    else none
  | [] => none

/-- Continuation of a three-byte sequence. -/
def utf8Dec3 (b0 : Nat) : List Nat → Option (List Char)
  | b1 :: b2 :: bs' =>
    if isCont b1 && isCont b2 && 0x800 ≤ (b0 - 0xE0) * 4096 + (b1 - 0x80) * 64 + (b2 - 0x80)
       && validCp ((b0 - 0xE0) * 4096 + (b1 - 0x80) * 64 + (b2 - 0x80)) then
      (utf8Decode bs').map
        (fun cs => Char.ofNat ((b0 - 0xE0) * 4096 + (b1 - 0x80) * 64 + (b2 - 0x80)) :: cs)
    else none
  | [_] => none
  | [] => none

/-- Continuation of a four-byte sequence. -/
def utf8Dec4 (b0 : Nat) : List Nat → Option (List Char)
  | b1 :: b2 :: b3 :: bs' =>
    if isCont b1 && isCont b2 && isCont b3
       && 0x10000 ≤ (b0 - 0xF0) * 262144 + (b1 - 0x80) * 4096 + (b2 - 0x80) * 64 + (b3 - 0x80)
       && (b0 - 0xF0) * 262144 + (b1 - 0x80) * 4096 + (b2 - 0x80) * 64 + (b3 - 0x80)
          < 0x110000 then
      (utf8Decode bs').map
        (fun cs =>
          Char.ofNat ((b0 - 0xF0) * 262144 + (b1 - 0x80) * 4096 + (b2 - 0x80) * 64 + (b3 - 0x80))
            :: cs)
    else none
  | [_, _] => none
  | [_] => none
  | [] => none

end

def utf8Len (s : List Char) : Nat := (s.map Char.utf8Size).sum

/-! ## The `f64` model -/

/-- Model of Rust `f64` for this library: an exact rational for finite
doubles, plus the three non-finite values.  Every finite double is a rational
whose denominator divides a power of two, hence is exactly representable. -/
inductive F64 where
  | finite (q : ℚ)
  | nan
  | inf
  | neginf
deriving DecidableEq, Repr

/-- The numeric value of `f64::MAX` = 2^1024 − 2^971 = (2^53 − 1) · 2^971. -/
def maxQ : ℚ := ((2 ^ 1024 - 2 ^ 971 : ℕ) : ℚ)

/-- `f64::MAX`. -/
def f64Max : F64 := .finite maxQ

/-- Rust `f64` `==` (IEEE equality): NaN is not equal to anything. -/
def f64Eq : F64 → F64 → Bool
  | .finite a, .finite b => a == b
  | .finite _, .nan => false
  | .finite _, .inf => false
  | .finite _, .neginf => false
  | .nan, _ => false
  | .inf, .finite _ => false
  | .inf, .nan => false
  | .inf, .inf => true
  | .inf, .neginf => false
  | .neginf, .finite _ => false
  | .neginf, .nan => false
  | .neginf, .inf => false
  | .neginf, .neginf => true

/-- Rust `f64` `+` on the model (exact; overflow to infinity is not modelled). -/
def F64.add : F64 → F64 → F64
  | .finite a, .finite b => .finite (a + b)
  | .finite _, .nan => .nan
  | .finite _, .inf => .inf
  | .finite _, .neginf => .neginf
  | .nan, _ => .nan
  | .inf, .finite _ => .inf
  | .inf, .nan => .nan
  | .inf, .inf => .inf
  | .inf, .neginf => .nan
  | .neginf, .finite _ => .neginf
  | .neginf, .nan => .nan
  | .neginf, .inf => .nan
  | .neginf, .neginf => .neginf

def qCmp (a b : ℚ) : Ordering :=
  if a < b then .lt else if b < a then .gt else .eq

/-- Rust `f64::partial_cmp`: `none` exactly when one side is NaN. -/
def f64PartialCmp : F64 → F64 → Option Ordering
  | .finite a, .finite b => some (qCmp a b)
  | .finite _, .nan => none
  | .finite _, .inf => some .lt
  | .finite _, .neginf => some .gt
  | .nan, _ => none
  | .inf, .finite _ => some .gt
  | .inf, .nan => none
  | .inf, .inf => some .eq
  | .inf, .neginf => some .gt
  | .neginf, .finite _ => some .lt
  | .neginf, .nan => none
  | .neginf, .inf => some .lt
  | .neginf, .neginf => some .eq

/-! ## Rust float printing (`f64` `Display`, decimal form, no exponent) -/

/-- Least `k` with `d ∣ 10^k`, when one exists (i.e. `d = 2^a·5^b`). -/
def decExp (d : Nat) : Option Nat := (List.range (d + 1)).find? (fun k => 10 ^ k % d == 0)

/-- `q` has a finite decimal representation (true of every finite `f64`). -/
def decRep (q : ℚ) : Bool := (decExp q.den).isSome

def padZeros (k : Nat) (n : Nat) : List Char :=
  List.replicate (k - (natToString n).length) '0' ++ natToString n

/-- Decimal string of a rational with finite decimal expansion, in the form
Rust's `Display` for `f64` produces (no exponent, shortest digits). -/
def ratToString (q : ℚ) : List Char :=
  let k := (decExp q.den).getD 0
  let m := q.num.natAbs * 10 ^ k / q.den
  let ip := natToString (m / 10 ^ k)
  let fp := if k = 0 then [] else '.' :: padZeros k (m % 10 ^ k)
  (if q.num < 0 then ['-'] else []) ++ ip ++ fp

/-- Rust `Display` for the `f64` model (`NaN`, `inf`, `-inf` as in `std`). -/
def f64ToString : F64 → List Char
  | .finite q => ratToString q
  | .nan => strL "NaN"
  | .inf => strL "inf"
  | .neginf => strL "-inf"

/-! ## `Binary` (src/binary.rs) -/

/-- `Binary`: an owned byte blob (`src/binary.rs`). -/
structure Binary where
  data : List Nat
deriving DecidableEq, Repr

/-- `Binary::build`. -/
def Binary.build (data : List Nat) : Binary := ⟨data⟩

/-- `Binary::from_b64` — base64-decode, error on invalid input. -/
def Binary.from_b64 (value : List Char) : Option Binary :=
  (base64Decode value).map Binary.build

/-- `Binary::size`. -/
def Binary.size (b : Binary) : Nat := b.data.length

/-- `impl ToString for Binary`: `binary!(<base64>)`. -/
def Binary.toText (b : Binary) : List Char :=
  strL "binary!(" ++ base64Encode b.data ++ [')']

/-! ## `DataValue` (src/lib.rs) -/

/-- The tagged value type of the library.  `Dict` is modelled as an
association list (Rust uses `HashMap`, whose iteration order is
unspecified). -/
inductive DataValue where
  | None
  | String (s : List Char)
  | Number (n : F64)
  | Boolean (b : Bool)
  | List (l : List DataValue)
  | Dict (d : List (List Char × DataValue))
  | Tuple (a b : DataValue)
  | Binary (b : Doson.Binary)

/-! ### Printer (`impl ToString for DataValue`) -/

mutual

/-- `DataValue::to_string` (src/lib.rs lines 97-144): the canonical text
form.  The Rust list/dict loops append `elem,` for every element and chop
the final comma when the accumulated text is longer than the opening
bracket; that is reproduced literally here. -/
def toText : DataValue → List Char
  | .None => strL "none"
  | .String s => '"' :: (s ++ ['"'])
  | .Number n => f64ToString n
  | .Boolean true => strL "true"
  | .Boolean false => strL "false"
  | .List l =>
    let res := '[' :: listBody l
    (if res.length > 1 then res.dropLast else res) ++ [']']
  | .Dict d =>
    let res := Char.ofNat 123 :: dictBody d
    (if res.length > 1 then res.dropLast else res) ++ [Char.ofNat 125]
  | .Tuple a b => '(' :: (toText a ++ ',' :: (toText b ++ [')']))
  | .Binary b => b.toText

/-- The `for v in l { res += v.to_string() + "," }` loop of the printer. -/
def listBody : List DataValue → List Char
  | [] => []
  | v :: vs => (toText v ++ [',']) ++ listBody vs

/-- The dict printing loop: `"key":value,` per entry. -/
def dictBody : List (List Char × DataValue) → List Char
  | [] => []
  | (k, v) :: ps => ('"' :: (k ++ '"' :: ':' :: toText v) ++ [',']) ++ dictBody ps

end

/-! ### Weight (`DataValue::weight`, src/lib.rs lines 213-257) -/

/-- The sentinel replacement inside composite weight sums: a child weight
equal (by `f64` `==`) to `f64::MAX` contributes 0. -/
def zeroMax (w : F64) : F64 := if f64Eq w f64Max then .finite 0 else w

mutual

/-- `DataValue::weight`: a `Number` weighs its payload, every other leaf
weighs `f64::MAX`, composites sum child weights with the `f64::MAX`
sentinel replaced by 0. -/
def weight : DataValue → F64
  | .Number n => n
  | .List l => wList (.finite 0) l
  | .Dict d => wDict (.finite 0) d
  | .Tuple a b => ((F64.finite 0).add (zeroMax (weight a))).add (zeroMax (weight b))
  | .None => f64Max
  | .String _ => f64Max
  | .Boolean _ => f64Max
  | .Binary _ => f64Max

/-- The `for item in l { ... total += temp }` accumulation over a list. -/
def wList : F64 → List DataValue → F64
  | total, [] => total
  | total, v :: vs => wList (total.add (zeroMax (weight v))) vs

/-- The accumulation over dict values. -/
def wDict : F64 → List (List Char × DataValue) → F64
  | total, [] => total
  | total, (_, v) :: ps => wDict (total.add (zeroMax (weight v))) ps

end

/-! ### Ordering (`impl Ord for DataValue`, src/lib.rs lines 146-156) -/

/-- `Ord::cmp`: compare weights, collapsing an undefined (NaN) comparison
to `Equal`. -/
def cmp (a b : DataValue) : Ordering :=
  (f64PartialCmp (weight a) (weight b)).getD .eq

/-! ### Size (`DataValue::size`) -/

mutual

def size : DataValue → Nat
  | .None => 0
  | .String s => s.length
  | .Number _ => 8
  | .Boolean _ => 1
  | .List l => sizeL l
  | .Dict d => sizeD d
  | .Tuple a b => size a + size b
  | .Binary b => b.size

def sizeL : List DataValue → Nat
  | [] => 0
  | v :: vs => size v + sizeL vs

def sizeD : List (List Char × DataValue) → Nat
  | [] => 0
  | (_, v) :: ps => size v + sizeD ps

end

/-! ## The parser (`ValueParser`, src/lib.rs lines 349-502).

nom is modelled from the spec's grammar (§4.4): parsers take a `List Char`
and return the unconsumed remainder on success.  Recursion is bounded by a
fuel parameter; `DataValue::from` supplies `length + 1` fuel, which is shown
sufficient for every parse the real parser completes (each recursive descent
first consumes at least one character). -/

/-- `digit1`/`digit0` accumulation: read a maximal digit run, returning the
accumulated value, the number of digits read, and the remainder. -/
def digit0Go : Nat → Nat → List Char → Nat × Nat × List Char
  | acc, cnt, c :: cs =>
    if isDigitCh c then digit0Go (acc * 10 + digitVal c) (cnt + 1) cs
    else (acc, cnt, c :: cs)
  | acc, cnt, [] => (acc, cnt, [])

/-- nom `digit1`: at least one digit required. -/
def digit1P (s : List Char) : Option (Nat × Nat × List Char) :=
  match s with
  | c :: _ => if isDigitCh c then some (digit0Go 0 0 s) else none
  | [] => none

/-- The optional leading sign of a float literal. -/
def signP : List Char → Bool × List Char
  | c :: t => if c = '-' then (true, t) else if c = '+' then (false, t) else (false, c :: t)
  | [] => (false, [])

/-- The optional fraction part: a dot followed by `digit0`. -/
def fracP : List Char → Nat × Nat × List Char
  | c :: t => if c = '.' then digit0Go 0 0 t else (0, 0, c :: t)
  | [] => (0, 0, [])

/-- The optional exponent of a float literal (`e`/`E`, optional sign,
digits).  An exponent marker not followed by digits is left unconsumed
(ordered-choice backtracking, spec §9). -/
def expPart (s : List Char) (q : ℚ) : List Char × ℚ :=
  match s with
  | e :: s1 =>
    if e = 'e' || e = 'E' then
      let (eneg, s2) := signP s1
      match digit1P s2 with
      | some (ex, _, s3) => (s3, if eneg then q / 10 ^ ex else q * 10 ^ ex)
      | none => (e :: s1, q)
    else (e :: s1, q)
  | [] => ([], q)

/-- nom `double` (spec §4.4: sign, integer part, fraction, exponent; NaN and
infinities are not produced, spec §3).  The numeric value is computed
exactly. -/
def parseNumber (s : List Char) : Option (List Char × F64) :=
  let (neg, s1) := signP s
  match digit1P s1 with
  | some (i, _, s2) =>
    let (f, k, s3) := fracP s2
    let q0 : ℚ := (i : ℚ) + (f : ℚ) / 10 ^ k
    let (s4, q) := expPart s3 (if neg then -q0 else q0)
    some (s4, .finite q)
  | none =>
    match s1 with
    | c :: t =>
      if c = '.' then
        match digit1P t with
        | some (f, k, s2) =>
          let q0 : ℚ := (f : ℚ) / 10 ^ k
          let (s3, q) := expPart s2 (if neg then -q0 else q0)
          some (s3, .finite q)
        | none => none
      else none
    | [] => none

/-- `ValueParser::parse_boolean`: case-insensitive `true` / `false`. -/
def parseBoolean (s : List Char) : Option (List Char × Bool) :=
  match tagNoCase (strL "true") s with
  | some r => some (r, true)
  | none =>
    match tagNoCase (strL "false") s with
    | some r => some (r, false)
    | none => none

/-- `ValueParser::normal`: characters other than backslash, quote and ASCII
control characters. -/
def isNormalCh (c : Char) : Bool :=
  !(c = '\\' || c = '"' || c.toNat < 32 || c.toNat = 127)

def isHexOrU (c : Char) : Bool :=
  c.isDigit || ('a' ≤ c && c ≤ 'f') || ('A' ≤ c && c ≤ 'F') || c = 'u'

/-- `take_while_m_n(5, 5, p)`. -/
def take5 (p : Char → Bool) (s : List Char) : Option (List Char × List Char) :=
  match s with
  | c1 :: c2 :: c3 :: c4 :: c5 :: rest =>
    if p c1 && p c2 && p c3 && p c4 && p c5 then some ([c1, c2, c3, c4, c5], rest)
    else none
  | _ => none

/-- `ValueParser::parse_hex`: peek `u`, then exactly five hex-or-`u`
characters. -/
def parseHexEsc (s : List Char) : Option (List Char × List Char) :=
  match s with
  | c :: _ => if c = 'u' then take5 isHexOrU s else none
  | [] => none

/-- `ValueParser::escapable`. -/
def escapableP (s : List Char) : Option (List Char × List Char) :=
  match s with
  | c :: rest =>
    if c = '"' || c = '\\' || c = '/' || c = 'b' || c = 'f' ||
       c = 'n' || c = 'r' || c = 't'
    then some ([c], rest)
    else parseHexEsc s
  | [] => none

/-- nom `escaped(normal, '\\', escapable)`: alternating normal runs and
escape sequences; returns the remainder and the recognised raw text.  Each
continuing iteration consumes at least one character, so `length + 1` fuel
suffices. -/
def sfGo : Nat → List Char → Option (List Char × List Char)
  | 0, s => some (s, [])
  | fu + 1, s =>
    let norm := s.takeWhile isNormalCh
    let s1 := s.dropWhile isNormalCh
    match s1 with
    | c :: s2 =>
      if c = '\\' then
        (match escapableP s2 with
         | some (esc, s3) =>
           (match sfGo fu s3 with
            | some (r, m) => some (r, norm ++ '\\' :: (esc ++ m))
            | none => none)
         | none => none)
      else some (c :: s2, norm)
    | [] => some ([], norm)

def stringFormat (s : List Char) : Option (List Char × List Char) :=
  sfGo (s.length + 1) s

/-- `ValueParser::parse_string`: either the literal two-character text `""`
(whose MATCH — both quote characters — is returned as the payload), or a
quoted string body whose raw inner text is returned. -/
def parseStringLit (s : List Char) : Option (List Char × List Char) :=
  match s with
  | c :: t =>
    if c = '"' then
      match t with
      | c2 :: t2 =>
        if c2 = '"' then some (t2, ['"', '"'])
        else
          (match stringFormat t with
           | some (r, m) =>
             (match r with
              | c3 :: r2 => if c3 = '"' then some (r2, m) else none
              | [] => none)
           | none => none)
      | [] =>
        (match stringFormat t with
         | some (r, m) =>
           (match r with
            | c3 :: r2 => if c3 = '"' then some (r2, m) else none
            | [] => none)
         | none => none)
    else none
  | [] => none

def isAlnumCh (c : Char) : Bool := c.isAlphanum

/-- `ValueParser::parse_binary`: `binary!()` (whose match text fails base64
and yields an empty blob), or `binary!(` alphanumerics `)`; a body that
fails base64 decoding also yields an empty blob. -/
def parseBinary (s : List Char) : Option (List Char × Binary) :=
  match tagP (strL "binary!()") s with
  | some rest => some (rest, (Binary.from_b64 (strL "binary!()")).getD (Binary.build []))
  | none =>
    match tagP (strL "binary!(") s with
    | some s1 =>
      (match s1.dropWhile isAlnumCh with
       | ')' :: s2 => some (s2, (Binary.from_b64 (s1.takeWhile isAlnumCh)).getD (Binary.build []))
       | _ => none)
    | none => none

/-- Insertion into the dict model with overwrite (HashMap semantics). -/
def dictInsert : List (List Char × DataValue) → List Char → DataValue →
    List (List Char × DataValue)
  | [], k, v => [(k, v)]
  | (k', v') :: ps, k, v =>
    if k' = k then (k, v) :: ps else (k', v') :: dictInsert ps k v

/-- `collect()` of the parsed key/value pairs into the map: later duplicate
keys overwrite earlier ones. -/
def dictCollect (ps : List (List Char × DataValue)) : List (List Char × DataValue) :=
  ps.foldl (fun m kv => dictInsert m kv.1 kv.2) []

mutual

/-- `ValueParser::parse`: whitespace, then ordered choice
number / boolean / string / list / dict / tuple / binary, then whitespace.
When the input starts with `[` (resp. `(`) the later alternatives can never
succeed (their opening tags mismatch), so the model commits to that branch;
this is observably equivalent to nom's backtracking `alt`. -/
def parseValue : Nat → List Char → Option (List Char × DataValue)
  | 0, _ => none
  | f + 1, s =>
    let s1 := dropWs s
    let r : Option (List Char × DataValue) :=
      match parseNumber s1 with
      | some (r1, n) => some (r1, .Number n)
      | none =>
      match parseBoolean s1 with
      | some (r1, b) => some (r1, .Boolean b)
      | none =>
      match parseStringLit s1 with
      | some (r1, str) => some (r1, .String str)
      | none =>
      match s1 with
      | [] => none
      | c :: s2 =>
        if c = '[' then
          match parseValue f s2 with
          | none =>
            (match s2 with
             | c2 :: s3 => if c2 = ']' then some (s3, .List []) else none
             | [] => none)
          | some (s3, v) =>
            let (s4, vs) := parseItemsRest f s3
            (match s4 with
             | c2 :: s5 => if c2 = ']' then some (s5, .List (v :: vs)) else none
             | [] => none)
        else
          match parseDict f s1 with
          | some (r1, d) => some (r1, .Dict d)
          | none =>
            if c = '(' then
              match parseValue f s2 with
              | some (s3, a) =>
                (match s3 with
                 | c2 :: s4 =>
                   if c2 = ',' then
                     match parseValue f s4 with
                     | some (s5, b) =>
                       (match s5 with
                        | c3 :: s6 => if c3 = ')' then some (s6, .Tuple a b) else none
                        | [] => none)
                     | none => none
                   else none
                 | [] => none)
              | none => none
            else
              match parseBinary s1 with
              | some (r1, b) => some (r1, .Binary b)
              | none => none
    match r with
    | some (rest, v) => some (dropWs rest, v)
    | none => none
termination_by structural f _ => f

/-- The repetition part of `separated_list0(tag(","), value)` after the
first element: on failure of the element after a comma, the comma is not
consumed (nom backtracks the separator). -/
def parseItemsRest : Nat → List Char → List Char × List DataValue
  | 0, s => (s, [])
  | f + 1, s =>
    match s with
    | c :: s2 =>
      if c = ',' then
        match parseValue f s2 with
        | none => (c :: s2, [])
        | some (s3, v) =>
          let (s4, vs) := parseItemsRest f s3
          (s4, v :: vs)
      else (c :: s2, [])
    | [] => ([], [])
termination_by structural f _ => f

/-- `ValueParser::parse_dict`. -/
def parseDict : Nat → List Char → Option (List Char × List (List Char × DataValue))
  | 0, _ => none
  | f + 1, s =>
    match s with
    | c :: s2 =>
      if c = Char.ofNat 123 then
        match parsePair f s2 with
        | none =>
          (match s2 with
           | c2 :: s3 => if c2 = Char.ofNat 125 then some (s3, []) else none
           | [] => none)
        | some (s3, kv) =>
          let (s4, kvs) := parsePairsRest f s3
          (match s4 with
           | c2 :: s5 => if c2 = Char.ofNat 125 then some (s5, dictCollect (kv :: kvs)) else none
           | [] => none)
      else none
    | [] => none
termination_by structural f _ => f

/-- One `"key" : value` pair of a dict. -/
def parsePair : Nat → List Char → Option (List Char × (List Char × DataValue))
  | 0, _ => none
  | f + 1, s =>
    match parseStringLit (dropWs s) with
    | some (s2, k) =>
      (match dropWs s2 with
       | c :: s4 =>
         if c = ':' then
           match parseValue f s4 with
           | some (s5, v) => some (s5, (k, v))
           | none => none
         else none
       | [] => none)
    | none => none
termination_by structural f _ => f

/-- Comma-separated continuation of dict pairs. -/
def parsePairsRest : Nat → List Char → List Char × List (List Char × DataValue)
  | 0, s => (s, [])
  | f + 1, s =>
    match s with
    | c :: s2 =>
      if c = ',' then
        match parsePair f s2 with
        | none => (c :: s2, [])
        | some (s3, kv) =>
          let (s4, kvs) := parsePairsRest f s3
          (s4, kv :: kvs)
      else (c :: s2, [])
    | [] => ([], [])
termination_by structural f _ => f

end

/-! ## `DataValue::from` (src/lib.rs lines 187-202) -/

/-- The envelope step of `DataValue::from`: on a byte length of at least 3,
Rust slices `&data[0..2]` and (when that equals `b:`) `&data[len-1..]`.
Byte slicing panics when the index is not a character boundary; a panic is
modelled as `.error ()`.  When the envelope matches, the middle is
base64-decoded (failure → empty byte string) and UTF-8-decoded (failure →
empty string). -/
def envelopeStep (s : List Char) : Except Unit (List Char) :=
  if 3 ≤ utf8Len s then
    match s with
    | [] => .ok []
    | [_] => .error ()
    | c1 :: c2 :: rest =>
      if c1.utf8Size = 1 && c2.utf8Size = 1 then
        if c1 = 'b' && c2 = ':' then
          match rest.getLast? with
          | some lc =>
            if lc.utf8Size = 1 then
              if lc = ':' then
                .ok ((utf8Decode ((base64Decode rest.dropLast).getD [])).getD [])
              else .ok s
            else .error ()
          | none => .ok s
        else .ok s
      else if c1.utf8Size = 2 then .ok s
      else .error ()
  else .ok s

/-- `DataValue::from`: envelope step, then parse; parse failure yields
`None`.  A Rust panic in the envelope byte-slicing is `.error ()`. -/
def fromStr (s : List Char) : Except Unit DataValue :=
  match envelopeStep s with
  | .error e => .error e
  | .ok data =>
    match parseValue (data.length + 1) data with
    | some (_, v) => .ok v
    | none => .ok .None

/-! ## Predicates and measures used to state the properties -/

/-- A `Number` whose payload is not (`f64`-)equal to `f64::MAX`. -/
def numOk : DataValue → Bool
  | .Number n => !(f64Eq n f64Max)
  | .None => false
  | .String _ => false
  | .Boolean _ => false
  | .List _ => false
  | .Dict _ => false
  | .Tuple _ _ => false
  | .Binary _ => false

/-- Sum of the numeric payloads of the elements of a list (non-`Number`
elements contribute 0), accumulated in element order like the source. -/
def nsList (l : List DataValue) : F64 :=
  l.foldl (fun t v => t.add (match v with | .Number n => n | _ => .finite 0)) (.finite 0)

mutual

/-- The sum of the `Number` payloads contained in a value (0 for
non-numeric leaves), accumulated in the same order as `weight`. -/
def numSum : DataValue → F64
  | .Number n => n
  | .List l => nsAcc (.finite 0) l
  | .Dict d => nsAccD (.finite 0) d
  | .Tuple a b => ((F64.finite 0).add (numSum a)).add (numSum b)
  | .None => .finite 0
  | .String _ => .finite 0
  | .Boolean _ => .finite 0
  | .Binary _ => .finite 0

def nsAcc : F64 → List DataValue → F64
  | t, [] => t
  | t, v :: vs => nsAcc (t.add (numSum v)) vs

def nsAccD : F64 → List (List Char × DataValue) → F64
  | t, [] => t
  | t, (_, v) :: ps => nsAccD (t.add (numSum v)) ps

end

mutual

/-- The value contains no `Number` anywhere ("only non-numeric leaves"). -/
def nfree : DataValue → Bool
  | .Number _ => false
  | .List l => nfreeL l
  | .Dict d => nfreeD d
  | .Tuple a b => nfree a && nfree b
  | .None => true
  | .String _ => true
  | .Boolean _ => true
  | .Binary _ => true

def nfreeL : List DataValue → Bool
  | [] => true
  | v :: vs => nfree v && nfreeL vs

def nfreeD : List (List Char × DataValue) → Bool
  | [] => true
  | (_, v) :: ps => nfree v && nfreeD ps

end

mutual

/-- No sentinel collision anywhere in the value: no `Number` payload equals
`f64::MAX` and no composite's computed weight equals `f64::MAX`. -/
def wsafe : DataValue → Bool
  | .Number n => !(f64Eq n f64Max)
  | .List l => wsafeL l && !(f64Eq (weight (.List l)) f64Max)
  | .Dict d => wsafeD d && !(f64Eq (weight (.Dict d)) f64Max)
  | .Tuple a b => (wsafe a && wsafe b) && !(f64Eq (weight (.Tuple a b)) f64Max)
  | .None => true
  | .String _ => true
  | .Boolean _ => true
  | .Binary _ => true

def wsafeL : List DataValue → Bool
  | [] => true
  | v :: vs => wsafe v && wsafeL vs

def wsafeD : List (List Char × DataValue) → Bool
  | [] => true
  | (_, v) :: ps => wsafe v && wsafeD ps

end

mutual

/-- Values in the round-trip fragment of spec §8.1: built from `Number`,
`Boolean`, `List` and `Tuple` only, with every `Number` payload finite (a
finite double always has a finite decimal expansion). -/
def printable : DataValue → Bool
  | .Number (.finite q) => decRep q
  | .Number .nan => false
  | .Number .inf => false
  | .Number .neginf => false
  | .Boolean _ => true
  | .List l => printableL l
  | .Tuple a b => printable a && printable b
  | .None => false
  | .String _ => false
  | .Dict _ => false
  | .Binary _ => false

def printableL : List DataValue → Bool
  | [] => true
  | v :: vs => printable v && printableL vs

end

mutual

/-- Fuel sufficient for `parseValue` to parse the printed form of a value
(shown below to be at most the printed length). -/
def needFuel : DataValue → Nat
  | .List [] => 1
  | .List (v :: vs) => 1 + max (needFuel v) (itemsNeed vs)
  | .Tuple a b => 1 + max (needFuel a) (needFuel b)
  | .None => 1
  | .String _ => 1
  | .Number _ => 1
  | .Boolean _ => 1
  | .Dict _ => 1
  | .Binary _ => 1

def itemsNeed : List DataValue → Nat
  | [] => 0
  | w :: ws => 1 + max (needFuel w) (itemsNeed ws)

end

/-- The remainder strings that can follow a printed sub-value: empty, or
starting with a separator/closer (never a character that could extend the
printed token). -/
def restOkB : List Char → Bool
  | [] => true
  | c :: _ => c = ',' || c = ')' || c = ']'

/-- The comma-separated continuation of a printed list after its first
element: `,elem` for each further element (what the printer's body reduces
to once the trailing comma is chopped). -/
def itemsTail : List DataValue → List Char
  | [] => []
  | w :: ws => ',' :: (toText w ++ itemsTail ws)

/-- The input shape that makes `DataValue::from` take the envelope branch:
byte length at least 3, leading `b:`, trailing `:`. -/
def envShaped (s : List Char) : Bool :=
  match s with
  | c1 :: c2 :: rest =>
    decide (3 ≤ utf8Len (c1 :: c2 :: rest)) && c1 = 'b' && c2 = ':' &&
      rest.getLast? = some ':'
  | [_] => false
  | [] => false

/-! ## Weight helper lemmas -/

theorem maxQ_pos : 0 < maxQ := by
  have h : (0 : ℕ) < 2 ^ 1024 - 2 ^ 971 := by
    have := Nat.pow_lt_pow_right (a := 2) (by omega) (m := 971) (n := 1024) (by omega)
    omega
  simpa [maxQ] using h

theorem zeroMax_f64Max : zeroMax f64Max = .finite 0 := by
  simp [zeroMax, f64Eq, f64Max]

theorem zeroMax_of_ne {w : F64} (h : f64Eq w f64Max = false) : zeroMax w = w := by
  simp [zeroMax, h]

theorem f64Eq_finite_zero_max : f64Eq (.finite 0) f64Max = false := by
  have := maxQ_pos
  simp only [f64Eq, f64Max, beq_eq_false_iff_ne, ne_eq]
  intro h
  rw [← h] at this
  exact lt_irrefl 0 this

theorem zeroMax_finite_zero : zeroMax (.finite 0) = .finite 0 :=
  zeroMax_of_ne f64Eq_finite_zero_max

/-- `wList` as a left fold (the Rust `for` loop). -/
theorem wList_eq_foldl : ∀ (l : List DataValue) (t : F64),
    wList t l = l.foldl (fun t v => t.add (zeroMax (weight v))) t := by
  intro l
  induction l with
  | nil => intro t; rfl
  | cons v vs ih => intro t; rw [wList, List.foldl_cons, ih]

/-- `wDict` as a left fold over the values. -/
theorem wDict_eq_foldl : ∀ (d : List (List Char × DataValue)) (t : F64),
    wDict t d = (d.map Prod.snd).foldl (fun t v => t.add (zeroMax (weight v))) t := by
  intro d
  induction d with
  | nil => intro t; rfl
  | cons p ps ih =>
    intro t
    obtain ⟨k, v⟩ := p
    rw [wDict]
    simp only [List.map_cons, List.foldl_cons]
    rw [ih]

/-! ## C4 — weight on numeric lists -/

/-- C4 counterexample: the one-element list `[Number(f64::MAX)]` is a list
of Numbers, but its weight is 0 (the sentinel replacement zeroes the
child), not the sum `f64::MAX` of its payloads. -/
theorem c4_counterexample :
    weight (.List [.Number f64Max]) = .finite 0 ∧
    nsList [.Number f64Max] = f64Max ∧
    F64.finite 0 ≠ f64Max := by
  refine ⟨?_, ?_, ?_⟩
  · simp [weight, wList, zeroMax, f64Eq, f64Max, F64.add]
  · simp [nsList, F64.add, f64Max]
  · intro h
    have := maxQ_pos
    simp only [f64Max, F64.finite.injEq] at h
    rw [← h] at this
    exact lt_irrefl 0 this

/-- C4 (amended): for a list of Numbers none of which is (`f64`-)equal to
`f64::MAX`, the weight of the list is the sum of the payloads. -/
theorem c4_weight_numeric_list (l : List DataValue) (h : l.all numOk = true) :
    weight (.List l) = nsList l := by
  have main : ∀ (l : List DataValue) (t : F64), l.all numOk = true →
      wList t l = l.foldl (fun t v =>
        t.add (match v with | .Number n => n | _ => .finite 0)) t := by
    intro l
    induction l with
    | nil => intro t _; rfl
    | cons v vs ih =>
      intro t hall
      simp only [List.all_cons, Bool.and_eq_true] at hall
      obtain ⟨hv, hvs⟩ := hall
      cases v with
      | Number n =>
        simp only [numOk, Bool.not_eq_true'] at hv
        rw [wList, List.foldl_cons, ih _ hvs, weight, zeroMax_of_ne hv]
      | None => simp [numOk] at hv
      | String s => simp [numOk] at hv
      | Boolean b => simp [numOk] at hv
      | List l2 => simp [numOk] at hv
      | Dict d2 => simp [numOk] at hv
      | Tuple a b => simp [numOk] at hv
      | Binary b2 => simp [numOk] at hv
  rw [weight, nsList, main l _ h]

/-- C4 witness. -/
theorem c4_witness :
    ([DataValue.Number (.finite 1), .Number (.finite 2)].all numOk = true) ∧
    weight (.List [.Number (.finite 1), .Number (.finite 2)]) =
      nsList [.Number (.finite 1), .Number (.finite 2)] :=
  ⟨by decide, c4_weight_numeric_list _ (by decide)⟩

/-! ## C5 — the full weight specification -/

theorem wsafeL_mem {l : List DataValue} (h : wsafeL l = true) :
    ∀ v ∈ l, wsafe v = true := by
  induction l with
  | nil => intro v hv; cases hv
  | cons u us ih =>
    rw [wsafeL, Bool.and_eq_true] at h
    intro v hv
    rcases List.mem_cons.mp hv with h1 | h1
    · exact h1 ▸ h.1
    · exact ih h.2 v h1

theorem wsafeD_mem {d : List (List Char × DataValue)} (h : wsafeD d = true) :
    ∀ p ∈ d, wsafe p.2 = true := by
  induction d with
  | nil => intro p hp; cases hp
  | cons q qs ih =>
    obtain ⟨k, v⟩ := q
    rw [wsafeD, Bool.and_eq_true] at h
    intro p hp
    rcases List.mem_cons.mp hp with h1 | h1
    · exact h1 ▸ h.1
    · exact ih h.2 p h1

theorem nfreeL_mem {l : List DataValue} (h : nfreeL l = true) :
    ∀ v ∈ l, nfree v = true := by
  induction l with
  | nil => intro v hv; cases hv
  | cons u us ih =>
    rw [nfreeL, Bool.and_eq_true] at h
    intro v hv
    rcases List.mem_cons.mp hv with h1 | h1
    · exact h1 ▸ h.1
    · exact ih h.2 v h1

theorem nfreeD_mem {d : List (List Char × DataValue)} (h : nfreeD d = true) :
    ∀ p ∈ d, nfree p.2 = true := by
  induction d with
  | nil => intro p hp; cases hp
  | cons q qs ih =>
    obtain ⟨k, v⟩ := q
    rw [nfreeD, Bool.and_eq_true] at h
    intro p hp
    rcases List.mem_cons.mp hp with h1 | h1
    · exact h1 ▸ h.1
    · exact ih h.2 p h1

theorem finite_add_finite (a b : ℚ) :
    (F64.finite a).add (.finite b) = .finite (a + b) := rfl

/-- Accumulating zero contributions leaves the accumulator unchanged. -/
theorem wList_const : ∀ (l : List DataValue) (q : ℚ),
    (∀ v ∈ l, zeroMax (weight v) = .finite 0) → wList (.finite q) l = .finite q := by
  intro l
  induction l with
  | nil => intro q _; rfl
  | cons v vs ih =>
    intro q h
    rw [wList, h v (List.mem_cons_self _ _), finite_add_finite, add_zero]
    exact ih q (fun u hu => h u (List.mem_cons_of_mem _ hu))

theorem wDict_const : ∀ (d : List (List Char × DataValue)) (q : ℚ),
    (∀ p ∈ d, zeroMax (weight p.2) = .finite 0) → wDict (.finite q) d = .finite q := by
  intro d
  induction d with
  | nil => intro q _; rfl
  | cons p ps ih =>
    obtain ⟨k, v⟩ := p
    intro q h
    rw [wDict, h (k, v) (List.mem_cons_self _ _), finite_add_finite, add_zero]
    exact ih q (fun u hu => h u (List.mem_cons_of_mem _ hu))

/-- Every value without Numbers has `zeroMax`-weight 0: non-numeric leaves
carry the sentinel (zeroed), and composites sum to 0. -/
theorem nfree_zeroMax : ∀ (n : Nat) (v : DataValue), sizeOf v ≤ n → nfree v = true →
    zeroMax (weight v) = .finite 0 := by
  intro n
  induction n using Nat.strong_induction_on with
  | _ n ih =>
    intro v hs hn
    cases v with
    | None => exact zeroMax_f64Max
    | String s => exact zeroMax_f64Max
    | Boolean b => exact zeroMax_f64Max
    | Binary b => exact zeroMax_f64Max
    | Number q => simp [nfree] at hn
    | List l =>
      have hw : weight (.List l) = .finite 0 := by
        rw [weight]
        refine wList_const l 0 (fun u hu => ?_)
        have h1 : sizeOf u < sizeOf (DataValue.List l) := by
          have := List.sizeOf_lt_of_mem hu
          simp only [DataValue.List.sizeOf_spec]
          omega
        exact ih (sizeOf u) (by omega) u (le_refl _) (nfreeL_mem (by rw [nfree] at hn; exact hn) u hu)
      rw [hw]; exact zeroMax_finite_zero
    | Dict d =>
      have hw : weight (.Dict d) = .finite 0 := by
        rw [weight]
        refine wDict_const d 0 (fun p hp => ?_)
        have h1 : sizeOf p.2 < sizeOf (DataValue.Dict d) := by
          have h2 := List.sizeOf_lt_of_mem hp
          obtain ⟨k, v⟩ := p
          simp only [DataValue.Dict.sizeOf_spec]
          simp only [Prod.mk.sizeOf_spec] at h2
          omega
        exact ih (sizeOf p.2) (by omega) p.2 (le_refl _) (nfreeD_mem (by rw [nfree] at hn; exact hn) p hp)
      rw [hw]; exact zeroMax_finite_zero
    | Tuple a b =>
      rw [nfree, Bool.and_eq_true] at hn
      have ha : sizeOf a < sizeOf (DataValue.Tuple a b) := by
        simp only [DataValue.Tuple.sizeOf_spec]; omega
      have hb : sizeOf b < sizeOf (DataValue.Tuple a b) := by
        simp only [DataValue.Tuple.sizeOf_spec]; omega
      have h1 := ih (sizeOf a) (by omega) a (le_refl _) hn.1
      have h2 := ih (sizeOf b) (by omega) b (le_refl _) hn.2
      have hw : weight (.Tuple a b) = .finite 0 := by
        rw [weight, h1, h2, finite_add_finite, finite_add_finite, add_zero, add_zero]
      rw [hw]; exact zeroMax_finite_zero

/-- With per-child `zeroMax (weight c) = numSum c`, the weight loop and the
number-sum loop accumulate identically. -/
theorem wList_eq_nsAcc : ∀ (l : List DataValue) (t : F64),
    (∀ v ∈ l, zeroMax (weight v) = numSum v) → wList t l = nsAcc t l := by
  intro l
  induction l with
  | nil => intro t _; rfl
  | cons v vs ih =>
    intro t h
    rw [wList, nsAcc, h v (List.mem_cons_self _ _)]
    exact ih _ (fun u hu => h u (List.mem_cons_of_mem _ hu))

theorem wDict_eq_nsAccD : ∀ (d : List (List Char × DataValue)) (t : F64),
    (∀ p ∈ d, zeroMax (weight p.2) = numSum p.2) → wDict t d = nsAccD t d := by
  intro d
  induction d with
  | nil => intro t _; rfl
  | cons p ps ih =>
    obtain ⟨k, v⟩ := p
    intro t h
    rw [wDict, nsAccD, h (k, v) (List.mem_cons_self _ _)]
    exact ih _ (fun u hu => h u (List.mem_cons_of_mem _ hu))

/-- Sentinel-safety gives `zeroMax ∘ weight = numSum` on every value. -/
theorem wsafe_zeroMax_numSum : ∀ (n : Nat) (v : DataValue), sizeOf v ≤ n →
    wsafe v = true → zeroMax (weight v) = numSum v := by
  intro n
  induction n using Nat.strong_induction_on with
  | _ n ih =>
    intro v hs hw
    cases v with
    | None => rw [numSum]; exact zeroMax_f64Max
    | String s => rw [numSum]; exact zeroMax_f64Max
    | Boolean b => rw [numSum]; exact zeroMax_f64Max
    | Binary b => rw [numSum]; exact zeroMax_f64Max
    | Number q =>
      rw [wsafe, Bool.not_eq_true'] at hw
      rw [numSum, weight, zeroMax_of_ne hw]
    | List l =>
      rw [wsafe, Bool.and_eq_true, Bool.not_eq_true'] at hw
      have hch : ∀ u ∈ l, zeroMax (weight u) = numSum u := by
        intro u hu
        have h1 : sizeOf u < sizeOf (DataValue.List l) := by
          have := List.sizeOf_lt_of_mem hu
          simp only [DataValue.List.sizeOf_spec]
          omega
        exact ih (sizeOf u) (by omega) u (le_refl _) (wsafeL_mem hw.1 u hu)
      rw [zeroMax_of_ne hw.2, weight, numSum, wList_eq_nsAcc l _ hch]
    | Dict d =>
      rw [wsafe, Bool.and_eq_true, Bool.not_eq_true'] at hw
      have hch : ∀ p ∈ d, zeroMax (weight p.2) = numSum p.2 := by
        intro p hp
        have h1 : sizeOf p.2 < sizeOf (DataValue.Dict d) := by
          have h2 := List.sizeOf_lt_of_mem hp
          obtain ⟨k, v⟩ := p
          simp only [DataValue.Dict.sizeOf_spec]
          simp only [Prod.mk.sizeOf_spec] at h2
          omega
        exact ih (sizeOf p.2) (by omega) p.2 (le_refl _) (wsafeD_mem hw.1 p hp)
      rw [zeroMax_of_ne hw.2, weight, numSum, wDict_eq_nsAccD d _ hch]
    | Tuple a b =>
      rw [wsafe, Bool.and_eq_true, Bool.and_eq_true, Bool.not_eq_true'] at hw
      obtain ⟨⟨hwa, hwb⟩, hne⟩ := hw
      have ha : sizeOf a < sizeOf (DataValue.Tuple a b) := by
        simp only [DataValue.Tuple.sizeOf_spec]; omega
      have hb : sizeOf b < sizeOf (DataValue.Tuple a b) := by
        simp only [DataValue.Tuple.sizeOf_spec]; omega
      have h1 := ih (sizeOf a) (by omega) a (le_refl _) hwa
      have h2 := ih (sizeOf b) (by omega) b (le_refl _) hwb
      rw [zeroMax_of_ne hne, weight, numSum, h1, h2]

/-- C5 counterexample (to the "mixing" consequence): the list
`[Number(f64::MAX), Boolean(true)]` mixes a Number with a non-numeric, yet
its weight is 0, not the sum `f64::MAX` of its Numbers. -/
theorem c5_counterexample :
    weight (.List [.Number f64Max, .Boolean true]) = .finite 0 ∧
    numSum (.List [.Number f64Max, .Boolean true]) = f64Max ∧
    F64.finite 0 ≠ f64Max := by
  refine ⟨?_, ?_, ?_⟩
  · simp [weight, wList, zeroMax, f64Eq, f64Max, F64.add]
  · simp [numSum, nsAcc, F64.add, f64Max]
  · intro h
    have := maxQ_pos
    simp only [f64Max, F64.finite.injEq] at h
    rw [← h] at this
    exact lt_irrefl 0 this

/-- C5 (amended): the weight case analysis exactly as the code has it —
`Number(n) ↦ n`; `None`/`String`/`Boolean`/`Binary` ↦ `f64::MAX`;
`List`/`Dict`/`Tuple` ↦ the fold of child weights with the `f64::MAX`
sentinel replaced by 0 — hence a composite with only non-numeric leaves
weighs 0, and a sentinel-safe composite (no `Number` equal to `f64::MAX`
and no nested composite weighing exactly `f64::MAX`) weighs the sum of its
Numbers' values. -/
theorem c5_weight_spec :
    (∀ q, weight (.Number q) = q) ∧
    (weight .None = f64Max ∧ (∀ s, weight (.String s) = f64Max) ∧
      (∀ b, weight (.Boolean b) = f64Max) ∧ (∀ b, weight (.Binary b) = f64Max)) ∧
    ((∀ l, weight (.List l) =
        l.foldl (fun t v => t.add (zeroMax (weight v))) (.finite 0)) ∧
     (∀ d, weight (.Dict d) =
        (d.map Prod.snd).foldl (fun t v => t.add (zeroMax (weight v))) (.finite 0)) ∧
     (∀ a b, weight (.Tuple a b) =
        ((F64.finite 0).add (zeroMax (weight a))).add (zeroMax (weight b)))) ∧
    ((∀ l, nfree (.List l) = true → weight (.List l) = .finite 0) ∧
     (∀ d, nfree (.Dict d) = true → weight (.Dict d) = .finite 0) ∧
     (∀ a b, nfree (.Tuple a b) = true → weight (.Tuple a b) = .finite 0)) ∧
    ((∀ l, wsafe (.List l) = true → weight (.List l) = numSum (.List l)) ∧
     (∀ d, wsafe (.Dict d) = true → weight (.Dict d) = numSum (.Dict d)) ∧
     (∀ a b, wsafe (.Tuple a b) = true → weight (.Tuple a b) = numSum (.Tuple a b))) := by
  have hzm : ∀ v : DataValue, nfree v = true → zeroMax (weight v) = .finite 0 :=
    fun v => nfree_zeroMax (sizeOf v) v (le_refl _)
  have hzn : ∀ v : DataValue, wsafe v = true → zeroMax (weight v) = numSum v :=
    fun v => wsafe_zeroMax_numSum (sizeOf v) v (le_refl _)
  refine ⟨fun q => rfl, ⟨rfl, fun s => rfl, fun b => rfl, fun b => rfl⟩,
    ⟨fun l => by rw [weight, wList_eq_foldl],
     fun d => by rw [weight, wDict_eq_foldl],
     fun a b => rfl⟩, ⟨?_, ?_, ?_⟩, ⟨?_, ?_, ?_⟩⟩
  · intro l hn
    rw [weight]
    exact wList_const l 0 (fun u hu => hzm u (nfreeL_mem (by rw [nfree] at hn; exact hn) u hu))
  · intro d hn
    rw [weight]
    exact wDict_const d 0 (fun p hp => hzm p.2 (nfreeD_mem (by rw [nfree] at hn; exact hn) p hp))
  · intro a b hn
    rw [nfree, Bool.and_eq_true] at hn
    rw [weight, hzm a hn.1, hzm b hn.2, finite_add_finite, finite_add_finite,
      add_zero, add_zero]
  · intro l hw
    have h1 := hzn (.List l) hw
    rw [wsafe, Bool.and_eq_true, Bool.not_eq_true'] at hw
    rw [zeroMax_of_ne hw.2] at h1
    exact h1
  · intro d hw
    have h1 := hzn (.Dict d) hw
    rw [wsafe, Bool.and_eq_true, Bool.not_eq_true'] at hw
    rw [zeroMax_of_ne hw.2] at h1
    exact h1
  · intro a b hw
    have h1 := hzn (.Tuple a b) hw
    rw [wsafe, Bool.and_eq_true, Bool.and_eq_true, Bool.not_eq_true'] at hw
    rw [zeroMax_of_ne hw.2] at h1
    exact h1

/-- C5 witness: the sentinel-suppression parts applied at concrete inputs:
`[String "x", Boolean true]` (only non-numeric leaves → weight 0) and
`[Number 1, Boolean true]` (mixing → weight = 1 = sum of Numbers). -/
theorem c5_witness :
    (nfree (.List [.String ['x'], .Boolean true]) = true ∧
      weight (.List [.String ['x'], .Boolean true]) = .finite 0) ∧
    (wsafe (.List [.Number (.finite 1), .Boolean true]) = true ∧
      weight (.List [.Number (.finite 1), .Boolean true]) =
        numSum (.List [.Number (.finite 1), .Boolean true])) := by
  have hn : nfree (.List [.String ['x'], .Boolean true]) = true := by
    simp [nfree, nfreeL]
  have hw : wsafe (.List [.Number (.finite 1), .Boolean true]) = true := by
    have h1 : f64Eq (.finite 1) f64Max = false := by decide
    have h2 : weight (.List [.Number (.finite 1), .Boolean true]) = .finite 1 := by
      simp only [weight, wList]
      rw [zeroMax_of_ne h1, zeroMax_f64Max, finite_add_finite, finite_add_finite]
      norm_num
    rw [wsafe, h2]
    simp only [wsafeL, wsafe, h1]
    rfl
  exact ⟨⟨hn, (c5_weight_spec.2.2.2.1.1 _ hn)⟩, ⟨hw, (c5_weight_spec.2.2.2.2.1 _ hw)⟩⟩

/-! ## C7 — ordering by weight -/

theorem qCmp_self (a : ℚ) : qCmp a a = .eq := by simp [qCmp]

theorem qCmp_lt_iff {a b : ℚ} : qCmp a b = .lt ↔ a < b := by
  unfold qCmp
  split_ifs with h1 h2
  · exact iff_of_true rfl h1
  · exact iff_of_false (by simp) h1
  · exact iff_of_false (by simp) h1

theorem qCmp_gt_iff {a b : ℚ} : qCmp a b = .gt ↔ b < a := by
  unfold qCmp
  split_ifs with h1 h2
  · exact iff_of_false (by simp) (fun h => lt_asymm h1 h)
  · exact iff_of_true rfl h2
  · exact iff_of_false (by simp) h2

theorem f64pc_refl (w : F64) : (f64PartialCmp w w).getD .eq = .eq := by
  cases w with
  | finite a => simp [f64PartialCmp, qCmp_self]
  | nan => rfl
  | inf => rfl
  | neginf => rfl

theorem f64pc_asym (x y : F64) :
    f64PartialCmp x y = some .lt ↔ f64PartialCmp y x = some .gt := by
  cases x <;> cases y <;> simp [f64PartialCmp, qCmp_lt_iff, qCmp_gt_iff]

theorem f64pc_trans (x y z : F64) (h1 : f64PartialCmp x y = some .lt)
    (h2 : f64PartialCmp y z = some .lt) : f64PartialCmp x z = some .lt := by
  cases x <;> cases y <;> cases z <;>
    simp [f64PartialCmp, qCmp_lt_iff] at h1 h2 ⊢ <;>
    exact lt_trans h1 h2

theorem getD_eq_lt_iff {o : Option Ordering} : o.getD .eq = .lt ↔ o = some .lt := by
  cases o <;> simp

theorem getD_eq_gt_iff {o : Option Ordering} : o.getD .eq = .gt ↔ o = some .gt := by
  cases o <;> simp

/-- C7: comparison is exactly the float comparison of weights with the
undefined (NaN) case collapsed to `Equal`; consequently it is reflexive,
`lt`/`gt`-antisymmetric, transitive in the strict sense, and on `Number`s it
is the `f64` comparison of the payloads. -/
theorem c7_ordering : ∀ a b c : DataValue,
    (cmp a b = (f64PartialCmp (weight a) (weight b)).getD .eq) ∧
    (cmp a a = .eq) ∧
    (cmp a b = .lt ↔ cmp b a = .gt) ∧
    (cmp a b = .lt → cmp b c = .lt → cmp a c = .lt) ∧
    (∀ x y : F64, cmp (.Number x) (.Number y) = (f64PartialCmp x y).getD .eq) := by
  intro a b c
  refine ⟨rfl, ?_, ?_, ?_, fun x y => by simp only [cmp, weight]⟩
  · simp only [cmp]
    exact f64pc_refl (weight a)
  · simp only [cmp, getD_eq_lt_iff, getD_eq_gt_iff]
    exact f64pc_asym _ _
  · simp only [cmp, getD_eq_lt_iff]
    exact f64pc_trans _ _ _

/-- C7 witness: transitivity applied at `Number(1) < Number(2) < Number(3)`. -/
theorem c7_witness :
    cmp (.Number (.finite 1)) (.Number (.finite 3)) = .lt :=
  (c7_ordering (.Number (.finite 1)) (.Number (.finite 2)) (.Number (.finite 3))).2.2.2.1
    (by
      have hlt : (1 : ℚ) < 2 := by decide
      simp [cmp, weight, f64PartialCmp, qCmp, hlt])
    (by
      have hlt : (2 : ℚ) < 3 := by decide
      simp [cmp, weight, f64PartialCmp, qCmp, hlt])

/-! ## Parser branch lemmas (symbolic tails) -/

/-- The envelope step is the identity on an input of two one-byte characters
that are not `b:`. -/
theorem envelopeStep_no_env {c1 c2 : Char} (rest : List Char)
    (h1 : c1.utf8Size = 1) (h2 : c2.utf8Size = 1) (h3 : ¬(c1 = 'b' ∧ c2 = ':')) :
    envelopeStep (c1 :: c2 :: rest) = .ok (c1 :: c2 :: rest) := by
  unfold envelopeStep
  by_cases hlen : 3 ≤ utf8Len (c1 :: c2 :: rest)
  · rw [if_pos hlen]
    have hb : (decide (c1 = 'b') && decide (c2 = ':')) = false := by
      rcases Decidable.em (c1 = 'b') with hc | hc
      · have hc2 : ¬(c2 = ':') := fun hh => h3 ⟨hc, hh⟩
        simp [hc, hc2]
      · simp [hc]
    simp [h1, h2, hb]
  · rw [if_neg hlen]

theorem dropWs_cons {c : Char} (s : List Char) (h : isWsp c = false) :
    dropWs (c :: s) = c :: s := by
  simp [dropWs, List.dropWhile_cons, h]

theorem signP_cons {c : Char} (s : List Char) (h1 : c ≠ '-') (h2 : c ≠ '+') :
    signP (c :: s) = (false, c :: s) := by
  simp [signP, h1, h2]

theorem digit1P_cons_fail {c : Char} (s : List Char) (h : isDigitCh c = false) :
    digit1P (c :: s) = none := by
  simp [digit1P, h]

theorem parseNumber_fail {c : Char} (s : List Char) (hd : isDigitCh c = false)
    (h1 : c ≠ '-') (h2 : c ≠ '+') (h3 : c ≠ '.') : parseNumber (c :: s) = none := by
  simp [parseNumber, signP_cons s h1 h2, digit1P_cons_fail s hd, h3]

theorem tagNoCase_true_cons {c : Char} (s : List Char) :
    tagNoCase (strL "true") (c :: s) =
      if c.toLower = 't' then tagNoCase (strL "rue") s else none := rfl

theorem tagNoCase_false_cons {c : Char} (s : List Char) :
    tagNoCase (strL "false") (c :: s) =
      if c.toLower = 'f' then tagNoCase (strL "alse") s else none := rfl

theorem parseBoolean_fail {c : Char} (s : List Char) (h1 : c.toLower ≠ 't')
    (h2 : c.toLower ≠ 'f') : parseBoolean (c :: s) = none := by
  simp [parseBoolean, tagNoCase_true_cons, tagNoCase_false_cons, h1, h2]

theorem parseStringLit_fail {c : Char} (s : List Char) (h : c ≠ '"') :
    parseStringLit (c :: s) = none := by
  simp [parseStringLit, h]

theorem parseDict_fail (f : Nat) {c : Char} (s : List Char) (h : c ≠ Char.ofNat 123) :
    parseDict f (c :: s) = none := by
  cases f with
  | zero => rfl
  | succ f => simp [parseDict, h]

theorem tagP_binary_paren_cons {c : Char} (s : List Char) :
    tagP (strL "binary!()") (strL "binary!(" ++ (c :: s)) =
      if c = ')' then some s else none := rfl

theorem tagP_binary_open (s : List Char) :
    tagP (strL "binary!(") (strL "binary!(" ++ s) = some s := rfl

theorem tagP_binary_fail {c : Char} (s : List Char) (h : c ≠ 'b') :
    tagP (strL "binary!()") (c :: s) = none ∧ tagP (strL "binary!(") (c :: s) = none := by
  constructor <;> · show (if c = 'b' then _ else none) = none; rw [if_neg h]

theorem parseBinary_fail {c : Char} (s : List Char) (h : c ≠ 'b') :
    parseBinary (c :: s) = none := by
  rw [parseBinary, (tagP_binary_fail s h).1, (tagP_binary_fail s h).2]

theorem takeWhile_all_append {p : Char → Bool} : ∀ (xs : List Char) {c : Char}
    (ys : List Char), xs.all p = true → p c = false →
    (xs ++ c :: ys).takeWhile p = xs ∧ (xs ++ c :: ys).dropWhile p = c :: ys := by
  intro xs
  induction xs with
  | nil =>
    intro c ys _ hc
    simp [List.takeWhile_cons, List.dropWhile_cons, hc]
  | cons x xs ih =>
    intro c ys hall hc
    rw [List.all_cons, Bool.and_eq_true] at hall
    have h1 := ih ys hall.2 hc
    simp [List.takeWhile_cons, List.dropWhile_cons, hall.1, h1.1, h1.2]

/-- The whole `parse` fails on any head character that opens none of the
alternatives (used with `]`, `)`, etc.). -/
theorem parseValue_fail (f : Nat) {c : Char} (s : List Char)
    (hw : isWsp c = false) (hd : isDigitCh c = false) (h1 : c ≠ '-') (h2 : c ≠ '+')
    (h3 : c ≠ '.') (h4 : c.toLower ≠ 't') (h5 : c.toLower ≠ 'f') (h6 : c ≠ '"')
    (h7 : c ≠ '[') (h8 : c ≠ Char.ofNat 123) (h9 : c ≠ '(') (h10 : c ≠ 'b') :
    parseValue f (c :: s) = none := by
  cases f with
  | zero => rfl
  | succ f =>
    rw [parseValue, dropWs_cons s hw, parseNumber_fail s hd h1 h2 h3,
      parseBoolean_fail s h4 h5, parseStringLit_fail s h6]
    simp only [if_neg h7, parseDict_fail f s h8, if_neg h9, parseBinary_fail s h10]

theorem parseValue_rbrack (f : Nat) (s : List Char) : parseValue f (']' :: s) = none :=
  parseValue_fail f s (by decide) (by decide) (by decide) (by decide) (by decide)
    (by decide) (by decide) (by decide) (by decide) (by decide) (by decide) (by decide)

/-! ## C6 — bad base64 inside a well-formed binary literal -/

theorem isAlnum_ne_rparen {c : Char} (h : isAlnumCh c = true) : c ≠ ')' := by
  intro hc
  rw [hc] at h
  exact absurd h (by decide)

/-- The whole-input behaviour of the binary branch on a well-formed
alphanumeric body. -/
theorem parseValue_binary (f : Nat) (body : List Char) (rest : List Char)
    (h0 : body ≠ []) (h1 : body.all isAlnumCh = true) :
    parseValue (f + 1) (strL "binary!(" ++ (body ++ ')' :: rest)) =
      some (dropWs rest, .Binary ((Binary.from_b64 body).getD (Binary.build []))) := by
  obtain ⟨b0, body', rfl⟩ : ∃ b0 body', body = b0 :: body' := by
    cases body with
    | nil => exact absurd rfl h0
    | cons b0 body' => exact ⟨b0, body', rfl⟩
  have hb0 : isAlnumCh b0 = true := by
    rw [List.all_cons, Bool.and_eq_true] at h1
    exact h1.1
  have hshape : strL "binary!(" ++ ((b0 :: body') ++ ')' :: rest) =
      'b' :: 'i' :: 'n' :: 'a' :: 'r' :: 'y' :: '!' :: '(' :: ((b0 :: body') ++ ')' :: rest) := rfl
  rw [parseValue, hshape, dropWs_cons _ (by decide),
    parseNumber_fail _ (by decide) (by decide) (by decide) (by decide),
    parseBoolean_fail _ (by decide) (by decide),
    parseStringLit_fail _ (by decide)]
  simp only [if_neg (by decide : ('b' : Char) ≠ '['),
    parseDict_fail f _ (by decide : ('b' : Char) ≠ Char.ofNat 123),
    if_neg (by decide : ('b' : Char) ≠ '(')]
  rw [← hshape, parseBinary]
  simp only [List.cons_append]
  rw [tagP_binary_paren_cons, if_neg (isAlnum_ne_rparen hb0), tagP_binary_open]
  have hspan := takeWhile_all_append (p := isAlnumCh) (c := ')') (b0 :: body') rest h1
    (by decide)
  simp only [List.cons_append] at hspan
  simp [hspan.1, hspan.2]

/-- C6: inside a grammatically well-formed `binary!(<alphanumerics>)`
literal, a body that fails base64 decoding yields `Binary` with an empty
blob (size 0) rather than a parse error. -/
theorem c6_binary_bad_base64 (body : List Char) (h0 : body ≠ [])
    (h1 : body.all isAlnumCh = true) (h2 : base64Decode body = none) :
    fromStr (strL "binary!(" ++ (body ++ [')'])) = .ok (.Binary (Binary.build [])) ∧
    Binary.size (Binary.build []) = 0 := by
  refine ⟨?_, rfl⟩
  obtain ⟨b0, body', hb⟩ : ∃ b0 body', body = b0 :: body' := by
    cases body with
    | nil => exact absurd rfl h0
    | cons b0 body' => exact ⟨b0, body', rfl⟩
  have henv : envelopeStep (strL "binary!(" ++ (body ++ [')'])) =
      .ok (strL "binary!(" ++ (body ++ [')'])) := by
    rw [(rfl : strL "binary!(" ++ (body ++ [')']) =
      'b' :: 'i' :: (strL "nary!(" ++ (body ++ [')'])))]
    exact envelopeStep_no_env _ (by decide) (by decide) (by decide)
  simp only [fromStr, henv]
  rw [parseValue_binary ((strL "binary!(" ++ (body ++ [')'])).length) body [] h0 h1]
  rw [Binary.from_b64, h2]
  rfl

/-- C6 witness: the unpadded base64 body `SGVsbG8` of `Hello`. -/
theorem c6_witness :
    (strL "SGVsbG8" ≠ [] ∧ (strL "SGVsbG8").all isAlnumCh = true ∧
      base64Decode (strL "SGVsbG8") = none) ∧
    strL "binary!(" ++ (strL "SGVsbG8" ++ [')']) = strL "binary!(SGVsbG8)" ∧
    fromStr (strL "binary!(SGVsbG8)") = .ok (.Binary (Binary.build [])) ∧
    Binary.size (Binary.build []) = 0 := by
  refine ⟨⟨by decide, by decide, by decide⟩, rfl, ?_⟩
  have h := c6_binary_bad_base64 (strL "SGVsbG8") (by decide) (by decide) (by decide)
  exact h

/-! ## base64 and UTF-8 round trips -/

theorem b64Val_b64Char : ∀ n : Nat, n < 64 → b64Val (b64Char n) = some n := by decide

theorem b64Char_ne_eq : ∀ n : Nat, n < 64 → b64Char n ≠ '=' := by decide

/-- Decoding inverts encoding on byte lists. -/
theorem base64_roundtrip : ∀ (n : Nat) (bs : List Nat), bs.length ≤ n →
    (∀ b ∈ bs, b < 256) → base64Decode (base64Encode bs) = some bs := by
  intro n
  induction n with
  | zero =>
    intro bs hl _
    cases bs with
    | nil => rfl
    | cons b bs => simp at hl
  | succ n ih =>
    intro bs hl hb
    match bs with
    | [] => rfl
    | [b1] =>
      have h1 : b1 < 256 := hb b1 (by simp)
      rw [base64Encode, base64Decode]
      simp [b64Val_b64Char (b1 / 4) (by omega), b64Val_b64Char (b1 % 4 * 16) (by omega)]
      omega
    | [b1, b2] =>
      have h1 : b1 < 256 := hb b1 (by simp)
      have h2 : b2 < 256 := hb b2 (by simp)
      rw [base64Encode, base64Decode]
      simp [b64Val_b64Char (b1 / 4) (by omega),
        b64Val_b64Char (b1 % 4 * 16 + b2 / 16) (by omega),
        b64Val_b64Char (b2 % 16 * 4) (by omega),
        b64Char_ne_eq (b2 % 16 * 4) (by omega)]
      omega
    | b1 :: b2 :: b3 :: rest =>
      have h1 : b1 < 256 := hb b1 (by simp)
      have h2 : b2 < 256 := hb b2 (by simp)
      have h3 : b3 < 256 := hb b3 (by simp)
      have hrest := ih rest (by simp at hl; omega) (fun b hbm => hb b (by simp [hbm]))
      rw [base64Encode, base64Decode]
      simp [b64Val_b64Char (b1 / 4) (by omega),
        b64Val_b64Char (b1 % 4 * 16 + b2 / 16) (by omega),
        b64Val_b64Char (b2 % 16 * 4 + b3 / 64) (by omega),
        b64Val_b64Char (b3 % 64) (by omega),
        b64Char_ne_eq (b2 % 16 * 4 + b3 / 64) (by omega),
        b64Char_ne_eq (b3 % 64) (by omega), hrest]
      omega

theorem char_toNat_lt (c : Char) : c.toNat < 0x110000 := by
  rcases c.valid with h | ⟨_, h⟩
  · exact Nat.lt_trans h (by decide)
  · exact h

theorem char_not_surrogate (c : Char) : c.toNat < 0xD800 ∨ 0xE000 ≤ c.toNat := by
  have he : c.toNat = c.val.toNat := rfl
  rcases c.valid with h | ⟨h, _⟩
  · exact Or.inl (by omega)
  · exact Or.inr (by omega)

/-- Decoding one encoded character from the front of a byte stream. -/
theorem utf8Char_append (c : Char) (rest : List Nat) :
    utf8Decode (utf8EncodeChar c ++ rest) =
      (utf8Decode rest).map (fun cs => c :: cs) := by
  have hlt := char_toNat_lt c
  have hsur := char_not_surrogate c
  simp only [utf8EncodeChar]
  by_cases hc1 : c.toNat < 0x80
  · rw [if_pos hc1]
    simp only [List.cons_append, List.nil_append]
    rw [utf8Decode, if_pos hc1, Char.ofNat_toNat]
  · rw [if_neg hc1]
    by_cases hc2 : c.toNat < 0x800
    · rw [if_pos hc2]
      simp only [List.cons_append, List.nil_append]
      rw [utf8Decode]
      rw [if_neg (by omega)]
      rw [if_pos (by simp only [Bool.and_eq_true, decide_eq_true_eq]; omega)]
      rw [utf8Dec2]
      rw [if_pos (by simp only [isCont, Bool.and_eq_true, decide_eq_true_eq]; omega)]
      have harg : (0xC0 + c.toNat / 64 - 0xC0) * 64 + (0x80 + c.toNat % 64 - 0x80)
          = c.toNat := by omega
      rw [harg, Char.ofNat_toNat]
    · rw [if_neg hc2]
      by_cases hc3 : c.toNat < 0x10000
      · rw [if_pos hc3]
        simp only [List.cons_append, List.nil_append]
        rw [utf8Decode]
        rw [if_neg (by omega)]
        rw [if_neg (by simp only [Bool.and_eq_true, decide_eq_true_eq]; omega)]
        rw [if_pos (by simp only [Bool.and_eq_true, decide_eq_true_eq]; omega)]
        rw [utf8Dec3]
        have harg : (0xE0 + c.toNat / 4096 - 0xE0) * 4096 +
            (0x80 + c.toNat / 64 % 64 - 0x80) * 64 + (0x80 + c.toNat % 64 - 0x80)
            = c.toNat := by omega
        rw [if_pos ?hcond]
        case hcond =>
          simp only [isCont, validCp, Bool.and_eq_true, Bool.or_eq_true, decide_eq_true_eq]
          refine ⟨⟨⟨⟨by omega, by omega⟩, ⟨by omega, by omega⟩⟩, by omega⟩, ?_⟩
          rcases hsur with h | h
          · exact Or.inl (by omega)
          · exact Or.inr ⟨by omega, by omega⟩
        rw [harg, Char.ofNat_toNat]
      · rw [if_neg hc3]
        simp only [List.cons_append, List.nil_append]
        rw [utf8Decode]
        rw [if_neg (by omega)]
        rw [if_neg (by simp only [Bool.and_eq_true, decide_eq_true_eq]; omega)]
        rw [if_neg (by simp only [Bool.and_eq_true, decide_eq_true_eq]; omega)]
        rw [if_pos (by simp only [Bool.and_eq_true, decide_eq_true_eq]; omega)]
        rw [utf8Dec4]
        have harg : (0xF0 + c.toNat / 262144 - 0xF0) * 262144 +
            (0x80 + c.toNat / 4096 % 64 - 0x80) * 4096 +
            (0x80 + c.toNat / 64 % 64 - 0x80) * 64 + (0x80 + c.toNat % 64 - 0x80)
            = c.toNat := by omega
        rw [if_pos ?hcond2]
        case hcond2 =>
          simp only [isCont, Bool.and_eq_true, decide_eq_true_eq]
          refine ⟨⟨⟨⟨⟨by omega, by omega⟩, ⟨by omega, by omega⟩⟩, ⟨by omega, by omega⟩⟩,
            by omega⟩, by omega⟩
        rw [harg, Char.ofNat_toNat]

/-- UTF-8 decoding inverts encoding. -/
theorem utf8_roundtrip : ∀ s : List Char, utf8Decode (utf8Encode s) = some s := by
  intro s
  induction s with
  | nil => rfl
  | cons c cs ih =>
    have h : utf8Encode (c :: cs) = utf8EncodeChar c ++ utf8Encode cs := by
      simp [utf8Encode]
    rw [h, utf8Char_append, ih]
    rfl

theorem utf8EncodeChar_lt (c : Char) : ∀ b ∈ utf8EncodeChar c, b < 256 := by
  have hlt := char_toNat_lt c
  intro b hb
  rw [utf8EncodeChar] at hb
  by_cases hc1 : c.toNat < 0x80
  · rw [if_pos hc1] at hb
    simp only [List.mem_singleton] at hb
    omega
  · rw [if_neg hc1] at hb
    by_cases hc2 : c.toNat < 0x800
    · rw [if_pos hc2] at hb
      simp only [List.mem_cons, List.not_mem_nil, or_false] at hb
      rcases hb with h | h <;> omega
    · rw [if_neg hc2] at hb
      by_cases hc3 : c.toNat < 0x10000
      · rw [if_pos hc3] at hb
        simp only [List.mem_cons, List.not_mem_nil, or_false] at hb
        rcases hb with h | h | h <;> omega
      · rw [if_neg hc3] at hb
        simp only [List.mem_cons, List.not_mem_nil, or_false] at hb
        rcases hb with h | h | h | h <;> omega

theorem utf8Encode_lt (s : List Char) : ∀ b ∈ utf8Encode s, b < 256 := by
  intro b hb
  rw [utf8Encode] at hb
  simp only [List.mem_flatten, List.mem_map] at hb
  obtain ⟨bs, ⟨c, _, rfl⟩, hbm⟩ := hb
  exact utf8EncodeChar_lt c b hbm

/-! ## Envelope analysis (C3, C10) -/

/-- Any non-panicking run of the envelope step either leaves the input
unchanged or (on an envelope-shaped input) replaces it by the decoded
middle. -/
theorem envelopeStep_ok (s data : List Char) (h : envelopeStep s = .ok data) :
    data = s ∨
    (envShaped s = true ∧ ∃ mid, s = 'b' :: ':' :: mid ∧
      data = (utf8Decode ((base64Decode mid.dropLast).getD [])).getD []) := by
  unfold envelopeStep at h
  split at h
  case isTrue hlen =>
    split at h
    · simp only [Except.ok.injEq] at h
      exact .inl h.symm
    · exact Except.noConfusion h
    case h_3 c1 c2 rest =>
      split at h
      case isTrue hsz =>
        split at h
        case isTrue hbc =>
          simp only [Bool.and_eq_true, decide_eq_true_eq] at hbc
          obtain ⟨hb, hc⟩ := hbc
          subst hb
          subst hc
          split at h
          case h_1 lc hgl =>
            split at h
            case isTrue hlc1 =>
              split at h
              case isTrue hlc =>
                simp only [Except.ok.injEq] at h
                refine .inr ⟨?_, rest, rfl, h.symm⟩
                subst hlc
                simp [envShaped, hlen, hgl]
              case isFalse hlc =>
                simp only [Except.ok.injEq] at h
                exact .inl h.symm
            case isFalse hlc1 => exact Except.noConfusion h
          case h_2 hgl =>
            simp only [Except.ok.injEq] at h
            exact .inl h.symm
        case isFalse hbc =>
          simp only [Except.ok.injEq] at h
          exact .inl h.symm
      case isFalse hsz =>
        split at h
        · simp only [Except.ok.injEq] at h
          exact .inl h.symm
        · exact Except.noConfusion h
  case isFalse hlen =>
    simp only [Except.ok.injEq] at h
    exact .inl h.symm

/-- `parse` fails outright on any `b:`-headed document (so an input that
takes the envelope branch can never ALSO parse as a plain document). -/
theorem parseValue_fail_env (f : Nat) (t : List Char) :
    parseValue f ('b' :: ':' :: t) = none := by
  cases f with
  | zero => rfl
  | succ f =>
    rw [parseValue, dropWs_cons _ (by decide),
      parseNumber_fail _ (by decide) (by decide) (by decide) (by decide),
      parseBoolean_fail _ (by decide) (by decide),
      parseStringLit_fail _ (by decide)]
    have hb1 : tagP (strL "binary!()") ('b' :: ':' :: t) = none := rfl
    have hb2 : tagP (strL "binary!(") ('b' :: ':' :: t) = none := rfl
    simp only [if_neg (by decide : ('b' : Char) ≠ '['),
      parseDict_fail f _ (by decide : ('b' : Char) ≠ Char.ofNat 123),
      if_neg (by decide : ('b' : Char) ≠ '('), parseBinary, hb1, hb2]

/-! ## C10 — the amended trailing-discard property -/

/-- C10 (amended): whenever the envelope check does not panic and the
parser consumes a prefix of the document yielding `v`, `DataValue::from`
returns `v`, silently discarding the unconsumed remainder. -/
theorem c10_trailing_discard (s rest : List Char) (v : DataValue)
    (hp : parseValue (s.length + 1) s = some (rest, v))
    (henv : envelopeStep s ≠ .error ()) :
    fromStr s = .ok v := by
  cases he : envelopeStep s with
  | error e => cases e; exact absurd he henv
  | ok data =>
    rcases envelopeStep_ok s data he with rfl | ⟨_, mid, rfl, _⟩
    · simp only [fromStr, he, hp]
    · rw [parseValue_fail_env] at hp
      exact Option.noConfusion hp

/-- C10 witness: `true]` parses the prefix `true` with `]` left over, and
`from` returns `Boolean(true)`. -/
theorem c10_witness :
    parseValue ((strL "true]").length + 1) (strL "true]") =
      some (strL "]", .Boolean true) ∧
    fromStr (strL "true]") = .ok (.Boolean true) := by
  refine ⟨rfl, c10_trailing_discard _ (strL "]") _ rfl ?_⟩
  intro h
  rw [show envelopeStep (strL "true]") = .ok (strL "true]") from rfl] at h
  exact Except.noConfusion h

/-! ## C3 — the amended envelope transparency -/

theorem utf8Size_b : Char.utf8Size 'b' = 1 := rfl

theorem utf8Size_colon : Char.utf8Size ':' = 1 := rfl

/-- C3 (amended): for any document `t` that is NOT itself envelope-shaped,
if `from(t) = v` then parsing `"b:" ++ base64(t) ++ ":"` also yields `v`. -/
theorem c3_envelope_transparency (t : List Char) (v : DataValue)
    (hshape : envShaped t = false) (hv : fromStr t = .ok v) :
    fromStr ('b' :: ':' :: (base64Encode (utf8Encode t) ++ [':'])) = .ok v := by
  have het : envelopeStep t = .ok t := by
    cases he : envelopeStep t with
    | error e =>
      rw [fromStr, he] at hv
      exact Except.noConfusion hv
    | ok data =>
      rcases envelopeStep_ok t data he with heq | ⟨hsh, _, _, _⟩
      · rw [heq]
      · rw [hsh] at hshape
        exact Bool.noConfusion hshape
  have hdec : base64Decode (base64Encode (utf8Encode t)) = some (utf8Encode t) :=
    base64_roundtrip (utf8Encode t).length _ (le_refl _) (utf8Encode_lt t)
  have hgl : (base64Encode (utf8Encode t) ++ [':']).getLast? = some ':' := by simp
  have hdl : (base64Encode (utf8Encode t) ++ [':']).dropLast =
      base64Encode (utf8Encode t) := by simp
  have hlen3 : 3 ≤ utf8Len ('b' :: ':' :: (base64Encode (utf8Encode t) ++ [':'])) := by
    simp only [utf8Len, List.map_cons, List.sum_cons, List.map_append, List.sum_append,
      List.map_cons, List.sum_cons, List.map_nil, List.sum_nil, utf8Size_b, utf8Size_colon]
    omega
  have henvE : envelopeStep ('b' :: ':' :: (base64Encode (utf8Encode t) ++ [':'])) =
      .ok t := by
    unfold envelopeStep
    rw [if_pos hlen3]
    simp only [utf8Size_b, utf8Size_colon, hgl, hdl, hdec, utf8_roundtrip]
    simp [utf8_roundtrip]
  simp only [fromStr, henvE]
  rw [fromStr, het] at hv
  exact hv

/-- C3 witness: `t = "true"`. -/
theorem c3_witness :
    (envShaped (strL "true") = false ∧ fromStr (strL "true") = .ok (.Boolean true)) ∧
    fromStr ('b' :: ':' :: (base64Encode (utf8Encode (strL "true")) ++ [':'])) =
      .ok (.Boolean true) :=
  ⟨⟨by decide, rfl⟩, c3_envelope_transparency _ _ (by decide) rfl⟩

/-! ## C1 — the envelope byte-slicing panic -/

/-- C1: `DataValue::from` does NOT always return normally: on the
one-character input `€` (three UTF-8 bytes, so `len >= 3`), the slice
`&data[0..2]` falls inside the character and panics
(`byte index 2 is not a char boundary`).  The claim's infallibility is the
documented intent (spec §7: "Inside the parser there are NO user-visible
errors"), so this is a bug in the code's envelope check. -/
theorem c1_from_panics_on_multibyte : fromStr ['€'] = .error () := rfl

/-! ## C9 — the two-quote document -/

/-- C9: parsing the two-character document `""` succeeds via the first
`parse_string` alternative `tag("\"\"")`, whose MATCH (both quote
characters) becomes the `String` payload; printing that value therefore
yields four quote characters. -/
theorem c9_two_quote_string :
    fromStr (strL "\"\"") = .ok (.String ['"', '"']) ∧
    (['"', '"'] : List Char) ≠ [] ∧
    toText (.String ['"', '"']) = strL "\"\"\"\"" := by
  refine ⟨rfl, by simp, ?_⟩
  simp [toText, strL]

/-! ## C8 — binary literals do not round-trip -/

/-- C8: the binary literal body accepts only ASCII alphanumerics, so `=`,
`+` and `/` are rejected; the 5-byte blob `Hello` prints as
`binary!(SGVsbG8=)`, which fails to re-parse (the parser stops at `=` and
the closing parenthesis check fails), so `from` returns `None`, which is
not the original value. -/
theorem c8_binary_not_roundtrip :
    toText (.Binary (Binary.build [72, 101, 108, 108, 111])) = strL "binary!(SGVsbG8=)" ∧
    fromStr (strL "binary!(SGVsbG8=)") = .ok .None ∧
    DataValue.None ≠ .Binary (Binary.build [72, 101, 108, 108, 111]) ∧
    fromStr (strL "binary!(=)") = .ok .None ∧
    fromStr (strL "binary!(+)") = .ok .None ∧
    fromStr (strL "binary!(/)") = .ok .None := by
  refine ⟨?_, rfl, fun h => DataValue.noConfusion h, rfl, rfl, rfl⟩
  simp only [toText, Binary.toText]
  rfl

/-! ## C2 — parse∘print round trip on the Number/Boolean/List/Tuple fragment -/

/-- C2 counterexample: the claim quantifies over every value built from the
four variants, including `Number(NaN)`; that value prints as `NaN`, which
the grammar (spec §4.4: sign, integer, fraction, exponent only) cannot
parse, so `from` returns `None` rather than the original value. -/
theorem c2_counterexample :
    fromStr (toText (.Number .nan)) = .ok .None ∧
    DataValue.None ≠ .Number .nan := by
  have h : toText (.Number .nan) = strL "NaN" := by simp [toText, f64ToString]
  exact ⟨by rw [h]; rfl, fun h => DataValue.noConfusion h⟩

/-! ## C3 — envelope transparency -/

/-- C3 counterexample: take `t = "b:dHJ1ZQ==:"` (the envelope of `true`);
`from(t) = Boolean(true)`, but the enveloped form
`"b:" ++ base64(t) ++ ":" = "b:YjpkSEoxWlE9PTo=:"` decodes back to `t` and
then parses `t` as a PLAIN document (the envelope is unwrapped only once),
which fails, giving `None` — not the value `t` parses to. -/
theorem c3_counterexample :
    strL "b:YjpkSEoxWlE9PTo=:" =
      strL "b:" ++ base64Encode (utf8Encode (strL "b:dHJ1ZQ==:")) ++ strL ":" ∧
    fromStr (strL "b:dHJ1ZQ==:") = .ok (.Boolean true) ∧
    fromStr (strL "b:YjpkSEoxWlE9PTo=:") = .ok .None ∧
    DataValue.Boolean true ≠ .None :=
  ⟨rfl, rfl, rfl, fun h => DataValue.noConfusion h⟩

/-! ## C10 — trailing input is discarded -/

/-- C10 counterexample: on `1€x` the prefix `1` parses as `Number(1)` with
`€x` left over, but `DataValue::from` does not return that value: the
envelope length check passes (5 bytes) and the slice `&data[0..2]` panics
on the multi-byte character, so the "regardless of what follows" part of
the claim fails. -/
theorem c10_counterexample :
    (parseValue (['1', '€', 'x'].length + 1) ['1', '€', 'x']).map Prod.fst =
      some ['€', 'x'] ∧
    fromStr ['1', '€', 'x'] = .error () :=
  ⟨rfl, rfl⟩

/-! ## C2 — the amended print/parse round trip

The fragment of spec §8.1 that survives the round trip: values built from
finite `Number`s, `Boolean`s, `List`s and `Tuple`s.  The development below
shows that the canonical printed form of such a value parses back to the
same value: digit strings re-accumulate to the printed natural, the exact
decimal expansion recovers the rational payload, the printed head opens the
correct parser alternative, and the envelope step is the identity on the
(all-ASCII, non-`b:`) printed document. -/

/-! ### ASCII characters encode as one UTF-8 byte -/

theorem utf8Size_of_ascii {c : Char} (h : c.toNat < 128) : c.utf8Size = 1 := by
  have he : c.toNat = c.val.toBitVec.toNat := rfl
  unfold Char.utf8Size
  rw [if_pos]
  simp only [UInt32.le_def, BitVec.le_def, UInt32.ofNatCore, BitVec.toNat_ofNatLt]
  omega

/-! ### Decimal digit characters -/

theorem digitChar_spec : ∀ d : Nat, d < 10 →
    isDigitCh (digitChar d) = true ∧ digitVal (digitChar d) = d ∧
    (digitChar d).toNat < 128 ∧ isWsp (digitChar d) = false ∧
    digitChar d ≠ 'b' ∧ digitChar d ≠ '-' ∧ digitChar d ≠ '+' := by decide

/-! ### The decimal digit string of a natural number -/

theorem natToString_lt {n : Nat} (h : n < 10) : natToString n = [digitChar n] := by
  rw [natToString, dif_pos h]

theorem natToString_ge {n : Nat} (h : ¬ n < 10) :
    natToString n = natToString (n / 10) ++ [digitChar (n % 10)] := by
  rw [natToString, dif_neg h]

theorem natToString_mem : ∀ n : Nat, ∀ c ∈ natToString n,
    ∃ d, d < 10 ∧ c = digitChar d := by
  intro n
  induction n using Nat.strong_induction_on with
  | _ n ih =>
    intro c hc
    by_cases h : n < 10
    · rw [natToString_lt h] at hc
      simp only [List.mem_singleton] at hc
      exact ⟨n, h, hc⟩
    · rw [natToString_ge h, List.mem_append] at hc
      rcases hc with hc | hc
      · exact ih (n / 10) (Nat.div_lt_self (by omega) (by omega)) c hc
      · simp only [List.mem_singleton] at hc
        exact ⟨n % 10, Nat.mod_lt _ (by omega), hc⟩

theorem natToString_head : ∀ n : Nat, ∃ d t, d < 10 ∧ natToString n = digitChar d :: t := by
  intro n
  induction n using Nat.strong_induction_on with
  | _ n ih =>
    by_cases h : n < 10
    · exact ⟨n, [], h, natToString_lt h⟩
    · obtain ⟨d, t, hd, hct⟩ := ih (n / 10) (Nat.div_lt_self (by omega) (by omega))
      exact ⟨d, t ++ [digitChar (n % 10)], hd, by rw [natToString_ge h, hct]; rfl⟩

theorem natToString_length_pos (n : Nat) : 1 ≤ (natToString n).length := by
  obtain ⟨d, t, _, hct⟩ := natToString_head n
  rw [hct]
  simp

theorem natToString_foldl : ∀ n acc : Nat,
    (natToString n).foldl (fun a c => a * 10 + digitVal c) acc =
      acc * 10 ^ (natToString n).length + n := by
  intro n
  induction n using Nat.strong_induction_on with
  | _ n ih =>
    intro acc
    by_cases h : n < 10
    · rw [natToString_lt h]
      simp [(digitChar_spec n h).2.1]
    · rw [natToString_ge h, List.foldl_append, List.length_append,
        ih (n / 10) (Nat.div_lt_self (by omega) (by omega)) acc]
      simp only [List.foldl_cons, List.foldl_nil, List.length_cons, List.length_nil]
      rw [(digitChar_spec (n % 10) (Nat.mod_lt _ (by omega))).2.1]
      have hp : (10:Nat) ^ ((natToString (n / 10)).length + (0 + 1)) =
          10 ^ (natToString (n / 10)).length * 10 := by ring
      rw [hp, ← mul_assoc]
      omega

theorem natToString_length_le : ∀ n k : Nat, 1 ≤ k → n < 10 ^ k →
    (natToString n).length ≤ k := by
  intro n
  induction n using Nat.strong_induction_on with
  | _ n ih =>
    intro k hk hn
    by_cases h : n < 10
    · rw [natToString_lt h]; simpa using hk
    · rcases k with _ | _ | k2
      · omega
      · rw [pow_one] at hn; omega
      · rw [natToString_ge h, List.length_append]
        have hdiv : n / 10 < 10 ^ (k2 + 1) := by
          have h10 : (10:Nat) ^ (k2 + 2) = 10 ^ (k2 + 1) * 10 := by ring
          rw [Nat.div_lt_iff_lt_mul (by omega)]
          omega
        have := ih (n / 10) (Nat.div_lt_self (by omega) (by omega)) (k2 + 1) (by omega) hdiv
        simp only [List.length_cons, List.length_nil]
        omega

/-! ### Digit-run accumulation (`digit0`/`digit1`) -/

theorem digit0Go_digits : ∀ (ds : List Char), (∀ c ∈ ds, isDigitCh c = true) →
    ∀ (r : List Char), (∀ c t, r = c :: t → isDigitCh c = false) →
    ∀ acc cnt, digit0Go acc cnt (ds ++ r) =
      (ds.foldl (fun a c => a * 10 + digitVal c) acc, cnt + ds.length, r) := by
  intro ds
  induction ds with
  | nil =>
    intro _ r hr acc cnt
    cases r with
    | nil => rfl
    | cons c t =>
      simp only [List.nil_append, digit0Go, hr c t rfl]
      simp
  | cons d ds ih =>
    intro hds r hr acc cnt
    have hd : isDigitCh d = true := hds d (by simp)
    simp only [List.cons_append, digit0Go, hd, if_true, List.append_eq]
    rw [ih (fun c hc => hds c (by simp [hc])) r hr]
    simp only [List.foldl_cons, List.length_cons, Prod.mk.injEq]
    exact ⟨trivial, by omega, trivial⟩

theorem foldl_zeros : ∀ (z acc : Nat),
    (List.replicate z '0').foldl (fun a c => a * 10 + digitVal c) acc = acc * 10 ^ z := by
  intro z
  induction z with
  | zero => intro acc; simp
  | succ z ih =>
    intro acc
    rw [List.replicate_succ, List.foldl_cons, ih]
    have h0 : digitVal '0' = 0 := rfl
    rw [h0]
    ring

theorem padZeros_facts (k fpn : Nat) (hk : 1 ≤ k) (hfp : fpn < 10 ^ k) :
    (∀ c ∈ padZeros k fpn, isDigitCh c = true) ∧
    (padZeros k fpn).length = k ∧
    (padZeros k fpn).foldl (fun a c => a * 10 + digitVal c) 0 = fpn := by
  refine ⟨?_, ?_, ?_⟩
  · intro c hc
    rw [padZeros, List.mem_append] at hc
    rcases hc with hc | hc
    · rw [List.eq_of_mem_replicate hc]; decide
    · obtain ⟨d, hd, rfl⟩ := natToString_mem _ c hc
      exact (digitChar_spec d hd).1
  · rw [padZeros, List.length_append, List.length_replicate]
    have := natToString_length_le fpn k hk hfp
    omega
  · rw [padZeros, List.foldl_append, foldl_zeros, Nat.zero_mul, natToString_foldl]
    simp

/-! ### The least exponent with `den ∣ 10 ^ k` -/

theorem decExp_spec {d k : Nat} (h : decExp d = some k) : 10 ^ k % d = 0 := by
  have := List.find?_some h
  simpa using this

/-! ### Exact decimal value recovery -/

theorem rat_div_add_mod (m k : Nat) :
    ((m / 10 ^ k : ℕ) : ℚ) + ((m % 10 ^ k : ℕ) : ℚ) / (10:ℚ) ^ k =
      (m : ℚ) / (10:ℚ) ^ k := by
  have h := Nat.div_add_mod m (10 ^ k)
  have hq : ((10:ℚ) ^ k) * ((m / 10 ^ k : ℕ) : ℚ) + ((m % 10 ^ k : ℕ) : ℚ) = (m : ℚ) := by
    exact_mod_cast h
  have hp : ((10:ℚ) ^ k) ≠ 0 := by positivity
  field_simp
  linarith [hq]

theorem rat_digits_val (q : ℚ) (k : Nat) (hk : 10 ^ k % q.den = 0) :
    ((q.num.natAbs * 10 ^ k / q.den / 10 ^ k : ℕ) : ℚ) +
      ((q.num.natAbs * 10 ^ k / q.den % 10 ^ k : ℕ) : ℚ) / (10:ℚ) ^ k =
      (q.num.natAbs : ℚ) / (q.den : ℚ) := by
  have hden : (q.den : ℚ) ≠ 0 := Nat.cast_ne_zero.mpr q.den_nz
  have hpk : ((10:ℚ) ^ k) ≠ 0 := by positivity
  have hdvd : q.den ∣ q.num.natAbs * 10 ^ k :=
    Dvd.dvd.mul_left (Nat.dvd_of_mod_eq_zero hk) _
  rw [rat_div_add_mod, Nat.cast_div hdvd hden]
  push_cast
  rw [div_div]
  field_simp
  ring

/-! ### Remainder heads after a printed token -/

theorem restOk_facts {r : List Char} (hr : restOkB r = true) :
    ∀ c t, r = c :: t → isDigitCh c = false ∧ c ≠ '.' ∧ c ≠ 'e' ∧ c ≠ 'E' ∧
      isWsp c = false := by
  intro c t hct
  subst hct
  simp only [restOkB, Bool.or_eq_true, decide_eq_true_eq] at hr
  rcases hr with (rfl | rfl) | rfl <;>
    exact ⟨by decide, by decide, by decide, by decide, by decide⟩

theorem dropWs_restOk {r : List Char} (hr : restOkB r = true) : dropWs r = r := by
  cases r with
  | nil => rfl
  | cons c t => exact dropWs_cons t ((restOk_facts hr c t rfl).2.2.2.2)

/-! ### Parsing back the printed digits -/

theorem digit1P_natToString (n : Nat) (r : List Char)
    (hr : ∀ c t, r = c :: t → isDigitCh c = false) :
    digit1P (natToString n ++ r) = some (n, (natToString n).length, r) := by
  obtain ⟨d, t, hd, hct⟩ := natToString_head n
  have hdig : isDigitCh (digitChar d) = true := (digitChar_spec d hd).1
  rw [hct, List.cons_append]
  simp only [digit1P, hdig, if_true]
  rw [← List.cons_append, ← hct,
    digit0Go_digits (natToString n)
      (fun c hc => by
        obtain ⟨e, he, rfl⟩ := natToString_mem n c hc
        exact (digitChar_spec e he).1) r hr,
    natToString_foldl]
  simp

theorem fracP_nodot {s : List Char} (hs : ∀ c t, s = c :: t → c ≠ '.') :
    fracP s = (0, 0, s) := by
  cases s with
  | nil => rfl
  | cons c t => simp [fracP, hs c t rfl]

theorem fracP_pad (k fpn : Nat) (hk : 1 ≤ k) (hfp : fpn < 10 ^ k) (r : List Char)
    (hr : ∀ c t, r = c :: t → isDigitCh c = false) :
    fracP ('.' :: (padZeros k fpn ++ r)) = (fpn, k, r) := by
  obtain ⟨hdig, hlen, hval⟩ := padZeros_facts k fpn hk hfp
  simp only [fracP, if_pos rfl]
  rw [digit0Go_digits (padZeros k fpn) hdig r hr, hval, hlen]
  simp

theorem expPart_stop {s : List Char} (hs : ∀ c t, s = c :: t → c ≠ 'e' ∧ c ≠ 'E')
    (x : ℚ) : expPart s x = (s, x) := by
  cases s with
  | nil => rfl
  | cons c t =>
    have h := hs c t rfl
    simp [expPart, h.1, h.2]

/-! ### One equational step for the whole `double` parser -/

theorem parseNumber_steps (s s1 : List Char) (neg : Bool) (i len : Nat)
    (s2 : List Char) (f k : Nat) (s3 : List Char)
    (hsign : signP s = (neg, s1)) (hdig : digit1P s1 = some (i, len, s2))
    (hfrac : fracP s2 = (f, k, s3))
    (hexp : expPart s3 (if neg then -((i:ℚ) + (f:ℚ) / 10 ^ k)
        else ((i:ℚ) + (f:ℚ) / 10 ^ k)) =
      (s3, if neg then -((i:ℚ) + (f:ℚ) / 10 ^ k) else ((i:ℚ) + (f:ℚ) / 10 ^ k))) :
    parseNumber s = some (s3, .finite (if neg then -((i:ℚ) + (f:ℚ) / 10 ^ k)
      else ((i:ℚ) + (f:ℚ) / 10 ^ k))) := by
  simp only [parseNumber, hsign, hdig, hfrac, hexp]

/-! ### The three string pieces behind a printed rational -/

theorem parseNumber_tail (ipn fpn k : Nat) (hfp : fpn < 10 ^ k) (r : List Char)
    (hr : restOkB r = true) :
    digit1P (natToString ipn ++ ((if k = 0 then [] else '.' :: padZeros k fpn) ++ r)) =
      some (ipn, (natToString ipn).length,
        (if k = 0 then [] else '.' :: padZeros k fpn) ++ r) ∧
    fracP ((if k = 0 then [] else '.' :: padZeros k fpn) ++ r) = (fpn, k, r) ∧
    ∀ x : ℚ, expPart r x = (r, x) := by
  have hrd : ∀ c t, r = c :: t → isDigitCh c = false :=
    fun c t hct => ((restOk_facts hr c t hct)).1
  refine ⟨?_, ?_, ?_⟩
  · refine digit1P_natToString ipn _ ?_
    intro c t hct
    by_cases hk : k = 0
    · rw [if_pos hk, List.nil_append] at hct
      exact hrd c t hct
    · rw [if_neg hk, List.cons_append, List.cons.injEq] at hct
      rw [← hct.1]
      decide
  · by_cases hk : k = 0
    · rw [if_pos hk, List.nil_append]
      have hf0 : fpn = 0 := by
        rw [hk] at hfp
        omega
      rw [fracP_nodot (fun c t hct => (restOk_facts hr c t hct).2.1), hf0, hk]
    · rw [if_neg hk, List.cons_append]
      exact fracP_pad k fpn (by omega) hfp r hrd
  · intro x
    exact expPart_stop
      (fun c t hct => ⟨(restOk_facts hr c t hct).2.2.1, (restOk_facts hr c t hct).2.2.2.1⟩) x

/-! ### The printed form parses back to the exact rational -/

theorem ratToString_eq (q : ℚ) (k : Nat) (hk : decExp q.den = some k) :
    ratToString q = ((if q.num < 0 then ['-'] else []) ++
      natToString (q.num.natAbs * 10 ^ k / q.den / 10 ^ k)) ++
      (if k = 0 then [] else
        '.' :: padZeros k (q.num.natAbs * 10 ^ k / q.den % 10 ^ k)) := by
  simp only [ratToString, hk, Option.getD_some]

theorem parseNumber_print (q : ℚ) (hq : decRep q = true) (r : List Char)
    (hr : restOkB r = true) :
    parseNumber (ratToString q ++ r) = some (r, .finite q) := by
  obtain ⟨k, hk⟩ : ∃ k, decExp q.den = some k := by
    rw [decRep, Option.isSome_iff_exists] at hq
    exact hq
  have hk0 : 10 ^ k % q.den = 0 := decExp_spec hk
  have hpk : (0:ℕ) < 10 ^ k := Nat.pos_pow_of_pos k (by omega)
  have hfp : q.num.natAbs * 10 ^ k / q.den % 10 ^ k < 10 ^ k := Nat.mod_lt _ hpk
  obtain ⟨hdig, hfrac, hexp⟩ := parseNumber_tail
    (q.num.natAbs * 10 ^ k / q.den / 10 ^ k)
    (q.num.natAbs * 10 ^ k / q.den % 10 ^ k) k hfp r hr
  have hval : ((q.num.natAbs * 10 ^ k / q.den / 10 ^ k : ℕ) : ℚ) +
      ((q.num.natAbs * 10 ^ k / q.den % 10 ^ k : ℕ) : ℚ) / (10:ℚ) ^ k =
      (q.num.natAbs : ℚ) / (q.den : ℚ) := rat_digits_val q k hk0
  rw [ratToString_eq q k hk]
  by_cases hneg : q.num < 0
  · rw [if_pos hneg]
    rw [List.append_assoc, List.append_assoc]
    have hsign : signP (['-'] ++ (natToString (q.num.natAbs * 10 ^ k / q.den / 10 ^ k) ++
        ((if k = 0 then [] else
          '.' :: padZeros k (q.num.natAbs * 10 ^ k / q.den % 10 ^ k)) ++ r))) =
        (true, natToString (q.num.natAbs * 10 ^ k / q.den / 10 ^ k) ++
          ((if k = 0 then [] else
            '.' :: padZeros k (q.num.natAbs * 10 ^ k / q.den % 10 ^ k)) ++ r)) := by
      simp [signP]
    rw [parseNumber_steps _ _ true _ _ _ _ _ _ hsign hdig hfrac (hexp _)]
    have hnum : ((q.num.natAbs : ℚ)) = -(q.num : ℚ) := by
      rw [Int.cast_natAbs, Int.cast_abs]
      exact abs_of_neg (by exact_mod_cast hneg)
    rw [if_pos rfl, hval, hnum, neg_div, neg_neg, Rat.num_div_den]
  · rw [if_neg hneg, List.nil_append, List.append_assoc]
    obtain ⟨d, t, hd, hct⟩ :=
      natToString_head (q.num.natAbs * 10 ^ k / q.den / 10 ^ k)
    have hsign : signP (natToString (q.num.natAbs * 10 ^ k / q.den / 10 ^ k) ++
        ((if k = 0 then [] else
          '.' :: padZeros k (q.num.natAbs * 10 ^ k / q.den % 10 ^ k)) ++ r)) =
        (false, natToString (q.num.natAbs * 10 ^ k / q.den / 10 ^ k) ++
          ((if k = 0 then [] else
            '.' :: padZeros k (q.num.natAbs * 10 ^ k / q.den % 10 ^ k)) ++ r)) := by
      rw [hct, List.cons_append]
      exact signP_cons _ (digitChar_spec d hd).2.2.2.2.2.1 (digitChar_spec d hd).2.2.2.2.2.2
    rw [parseNumber_steps _ _ false _ _ _ _ _ _ hsign hdig hfrac (hexp _)]
    have hnum : ((q.num.natAbs : ℚ)) = (q.num : ℚ) := by
      rw [Int.cast_natAbs, Int.cast_abs]
      exact abs_of_nonneg (by exact_mod_cast not_lt.mp hneg)
    rw [if_neg (by simp), hval, hnum, Rat.num_div_den]

/-! ### Parsing back the printed booleans -/

theorem tagNoCase_refl : ∀ (p r : List Char), tagNoCase p (p ++ r) = some r := by
  intro p
  induction p with
  | nil => intro r; rfl
  | cons c cs ih =>
    intro r
    simp only [List.cons_append, tagNoCase, if_pos rfl]
    exact ih r

theorem parseBoolean_true (r : List Char) :
    parseBoolean (strL "true" ++ r) = some (r, true) := by
  rw [parseBoolean, tagNoCase_refl]

theorem parseBoolean_false (r : List Char) :
    parseBoolean (strL "false" ++ r) = some (r, false) := by
  have h1 : tagNoCase (strL "true") (strL "false" ++ r) = none := by
    rw [show strL "false" ++ r = 'f' :: (strL "alse" ++ r) from rfl,
      tagNoCase_true_cons, if_neg (by decide)]
  rw [parseBoolean, h1, tagNoCase_refl]

/-! ### Shape of the printed forms -/

theorem toText_number (n : F64) : toText (.Number n) = f64ToString n := by
  rw [toText]

theorem toText_bool_true : toText (.Boolean true) = strL "true" := by
  rw [toText]

theorem toText_bool_false : toText (.Boolean false) = strL "false" := by
  rw [toText]

theorem toText_tuple (a b : DataValue) :
    toText (.Tuple a b) = '(' :: (toText a ++ ',' :: (toText b ++ [')'])) := by
  rw [toText]

theorem toText_list_nil : toText (.List []) = ['[', ']'] := by
  simp [toText, listBody]

theorem listBody_eq : ∀ (v : DataValue) (vs : List DataValue),
    listBody (v :: vs) = (toText v ++ itemsTail vs) ++ [','] := by
  intro v vs
  induction vs generalizing v with
  | nil => rw [listBody, listBody, itemsTail]; simp
  | cons w ws ih =>
    rw [listBody, ih w, itemsTail]
    simp

theorem toText_list_cons (v : DataValue) (vs : List DataValue) :
    toText (.List (v :: vs)) = '[' :: ((toText v ++ itemsTail vs) ++ [']']) := by
  simp only [toText, listBody_eq]
  have hlen : ('[' :: ((toText v ++ itemsTail vs) ++ [','])).length > 1 := by simp
  rw [if_pos hlen,
    show ('[' :: ((toText v ++ itemsTail vs) ++ [','])) =
      ('[' :: (toText v ++ itemsTail vs)) ++ [','] from rfl,
    List.dropLast_concat]
  simp

/-! ### Every printable value prints to a nonempty, non-`b`, non-blank head -/

theorem toText_head (v : DataValue) (hp : printable v = true) :
    ∃ c t, toText v = c :: t ∧ isWsp c = false ∧ c ≠ 'b' := by
  cases v with
  | Number m =>
    cases m with
    | finite q =>
      obtain ⟨k, hk⟩ : ∃ k, decExp q.den = some k := by
        rw [printable, decRep, Option.isSome_iff_exists] at hp
        exact hp
      rw [toText_number, f64ToString, ratToString_eq q k hk]
      by_cases hneg : q.num < 0
      · rw [if_pos hneg]
        simp only [List.cons_append, List.nil_append]
        exact ⟨'-', _, rfl, by decide, by decide⟩
      · rw [if_neg hneg, List.nil_append]
        obtain ⟨d, t, hd, hct⟩ :=
          natToString_head (q.num.natAbs * 10 ^ k / q.den / 10 ^ k)
        rw [hct, List.cons_append]
        exact ⟨digitChar d, _, rfl, (digitChar_spec d hd).2.2.2.1,
          (digitChar_spec d hd).2.2.2.2.1⟩
    | nan => rw [printable] at hp; exact Bool.noConfusion hp
    | inf => rw [printable] at hp; exact Bool.noConfusion hp
    | neginf => rw [printable] at hp; exact Bool.noConfusion hp
  | Boolean b =>
    cases b with
    | false => exact ⟨'f', strL "alse", toText_bool_false, by decide, by decide⟩
    | true => exact ⟨'t', strL "rue", toText_bool_true, by decide, by decide⟩
  | List l =>
    cases l with
    | nil => exact ⟨'[', [']'], toText_list_nil, by decide, by decide⟩
    | cons v vs => exact ⟨'[', _, toText_list_cons v vs, by decide, by decide⟩
  | Tuple a b => exact ⟨'(', _, toText_tuple a b, by decide, by decide⟩
  | None => rw [printable] at hp; exact Bool.noConfusion hp
  | String s => rw [printable] at hp; exact Bool.noConfusion hp
  | Dict d => rw [printable] at hp; exact Bool.noConfusion hp
  | Binary b => rw [printable] at hp; exact Bool.noConfusion hp

theorem restOk_itemsTail (vs : List DataValue) (r : List Char) :
    restOkB (itemsTail vs ++ (']' :: r)) = true := by
  cases vs with
  | nil => rfl
  | cons w ws => rfl

/-! ### All printed characters are ASCII -/

theorem ratToString_ascii (q : ℚ) : ∀ c ∈ ratToString q, c.toNat < 128 := by
  intro c hc
  simp only [ratToString, List.mem_append] at hc
  rcases hc with (hc | hc) | hc
  · split at hc
    · simp only [List.mem_singleton] at hc
      subst hc; decide
    · simp at hc
  · obtain ⟨d, hd, rfl⟩ := natToString_mem _ c hc
    exact (digitChar_spec d hd).2.2.1
  · split at hc
    · simp at hc
    · simp only [List.mem_cons] at hc
      rcases hc with rfl | hc
      · decide
      · rw [padZeros, List.mem_append] at hc
        rcases hc with hc | hc
        · rw [List.eq_of_mem_replicate hc]; decide
        · obtain ⟨d, hd, rfl⟩ := natToString_mem _ c hc
          exact (digitChar_spec d hd).2.2.1

theorem toText_ascii_aux : ∀ n : Nat,
    (∀ v : DataValue, sizeOf v ≤ n → printable v = true →
      ∀ c ∈ toText v, c.toNat < 128) ∧
    (∀ vs : List DataValue, sizeOf vs ≤ n → printableL vs = true →
      ∀ c ∈ itemsTail vs, c.toNat < 128) := by
  intro n
  induction n using Nat.strong_induction_on with
  | _ n ih =>
    constructor
    · intro v hs hp c hc
      cases v with
      | Number m =>
        cases m with
        | finite q =>
          rw [toText_number, f64ToString] at hc
          exact ratToString_ascii q c hc
        | nan => rw [printable] at hp; exact Bool.noConfusion hp
        | inf => rw [printable] at hp; exact Bool.noConfusion hp
        | neginf => rw [printable] at hp; exact Bool.noConfusion hp
      | Boolean b =>
        cases b with
        | false =>
          rw [toText_bool_false,
            show strL "false" = ['f', 'a', 'l', 's', 'e'] from rfl] at hc
          simp only [List.mem_cons, List.not_mem_nil, or_false] at hc
          rcases hc with rfl | rfl | rfl | rfl | rfl <;> decide
        | true =>
          rw [toText_bool_true,
            show strL "true" = ['t', 'r', 'u', 'e'] from rfl] at hc
          simp only [List.mem_cons, List.not_mem_nil, or_false] at hc
          rcases hc with rfl | rfl | rfl | rfl <;> decide
      | List l =>
        cases l with
        | nil =>
          rw [toText_list_nil] at hc
          simp only [List.mem_cons, List.not_mem_nil, or_false] at hc
          rcases hc with rfl | rfl <;> decide
        | cons v vs =>
          rw [toText_list_cons] at hc
          have hp2 : printable v = true ∧ printableL vs = true := by
            rw [printable, printableL, Bool.and_eq_true] at hp
            exact hp
          have h1 : sizeOf v < sizeOf (DataValue.List (v :: vs)) := by
            simp only [DataValue.List.sizeOf_spec, List.cons.sizeOf_spec]
            omega
          have h2 : sizeOf vs < sizeOf (DataValue.List (v :: vs)) := by
            simp only [DataValue.List.sizeOf_spec, List.cons.sizeOf_spec]
            omega
          simp only [List.mem_cons, List.mem_append, List.mem_singleton,
            List.not_mem_nil, or_false] at hc
          rcases hc with rfl | (hc | hc) | rfl
          · decide
          · exact (ih (sizeOf v) (by omega)).1 v (le_refl _) hp2.1 c hc
          · exact (ih (sizeOf vs) (by omega)).2 vs (le_refl _) hp2.2 c hc
          · decide
      | Tuple a b =>
        rw [toText_tuple] at hc
        have hp2 : printable a = true ∧ printable b = true := by
          rw [printable, Bool.and_eq_true] at hp
          exact hp
        have h1 : sizeOf a < sizeOf (DataValue.Tuple a b) := by
          simp only [DataValue.Tuple.sizeOf_spec]; omega
        have h2 : sizeOf b < sizeOf (DataValue.Tuple a b) := by
          simp only [DataValue.Tuple.sizeOf_spec]; omega
        simp only [List.mem_cons, List.mem_append, List.mem_singleton,
          List.not_mem_nil, or_false] at hc
        rcases hc with rfl | hc | rfl | hc | rfl
        · decide
        · exact (ih (sizeOf a) (by omega)).1 a (le_refl _) hp2.1 c hc
        · decide
        · exact (ih (sizeOf b) (by omega)).1 b (le_refl _) hp2.2 c hc
        · decide
      | None => rw [printable] at hp; exact Bool.noConfusion hp
      | String s => rw [printable] at hp; exact Bool.noConfusion hp
      | Dict d => rw [printable] at hp; exact Bool.noConfusion hp
      | Binary b => rw [printable] at hp; exact Bool.noConfusion hp
    · intro vs hs hpl c hc
      cases vs with
      | nil => rw [itemsTail] at hc; simp at hc
      | cons w ws =>
        rw [itemsTail] at hc
        have hp2 : printable w = true ∧ printableL ws = true := by
          rw [printableL, Bool.and_eq_true] at hpl
          exact hpl
        have h1 : sizeOf w < sizeOf (w :: ws) := by
          simp only [List.cons.sizeOf_spec]; omega
        have h2 : sizeOf ws < sizeOf (w :: ws) := by
          simp only [List.cons.sizeOf_spec]; omega
        simp only [List.mem_cons, List.mem_append] at hc
        rcases hc with rfl | hc | hc
        · decide
        · exact (ih (sizeOf w) (by omega)).1 w (le_refl _) hp2.1 c hc
        · exact (ih (sizeOf ws) (by omega)).2 ws (le_refl _) hp2.2 c hc

/-! ### The supplied fuel covers the printed length -/

theorem needFuel_pos (v : DataValue) : 1 ≤ needFuel v := by
  cases v with
  | List l => cases l <;> simp [needFuel]
  | None => simp [needFuel]
  | String s => simp [needFuel]
  | Number n => simp [needFuel]
  | Boolean b => simp [needFuel]
  | Dict d => simp [needFuel]
  | Tuple a b => simp [needFuel]
  | Binary b => simp [needFuel]

theorem ratToString_length_pos (q : ℚ) : 1 ≤ (ratToString q).length := by
  have h := natToString_length_pos
    (q.num.natAbs * 10 ^ ((decExp q.den).getD 0) / q.den / 10 ^ ((decExp q.den).getD 0))
  simp only [ratToString, List.length_append]
  omega

theorem needFuel_le_aux : ∀ n : Nat,
    (∀ v : DataValue, sizeOf v ≤ n → needFuel v ≤ (toText v).length) ∧
    (∀ vs : List DataValue, sizeOf vs ≤ n → itemsNeed vs ≤ (itemsTail vs).length) := by
  intro n
  induction n using Nat.strong_induction_on with
  | _ n ih =>
    constructor
    · intro v hs
      cases v with
      | Number m =>
        rw [needFuel, toText_number]
        cases m with
        | finite q => exact ratToString_length_pos q
        | nan => decide
        | inf => decide
        | neginf => decide
      | Boolean b =>
        cases b with
        | false => rw [needFuel, toText_bool_false]; decide
        | true => rw [needFuel, toText_bool_true]; decide
      | List l =>
        cases l with
        | nil => rw [needFuel, toText_list_nil]; decide
        | cons v vs =>
          have h1 : sizeOf v < sizeOf (DataValue.List (v :: vs)) := by
            simp only [DataValue.List.sizeOf_spec, List.cons.sizeOf_spec]
            omega
          have h2 : sizeOf vs < sizeOf (DataValue.List (v :: vs)) := by
            simp only [DataValue.List.sizeOf_spec, List.cons.sizeOf_spec]
            omega
          have ha := (ih (sizeOf v) (by omega)).1 v (le_refl _)
          have hb := (ih (sizeOf vs) (by omega)).2 vs (le_refl _)
          rw [needFuel, toText_list_cons]
          simp only [List.length_cons, List.length_append, List.length_singleton]
          omega
      | Tuple a b =>
        have h1 : sizeOf a < sizeOf (DataValue.Tuple a b) := by
          simp only [DataValue.Tuple.sizeOf_spec]; omega
        have h2 : sizeOf b < sizeOf (DataValue.Tuple a b) := by
          simp only [DataValue.Tuple.sizeOf_spec]; omega
        have ha := (ih (sizeOf a) (by omega)).1 a (le_refl _)
        have hb := (ih (sizeOf b) (by omega)).1 b (le_refl _)
        rw [needFuel, toText_tuple]
        simp only [List.length_cons, List.length_append]
        omega
      | None => rw [needFuel, toText]; decide
      | String s => rw [needFuel, toText]; simp
      | Dict d =>
        rw [needFuel, toText]
        simp only [List.length_append, List.length_singleton]
        omega
      | Binary b =>
        rw [needFuel, toText, Binary.toText]
        simp only [List.length_append, List.length_singleton]
        omega
    · intro vs hs
      cases vs with
      | nil => rw [itemsNeed, itemsTail]; simp
      | cons w ws =>
        have h1 : sizeOf w < sizeOf (w :: ws) := by
          simp only [List.cons.sizeOf_spec]; omega
        have h2 : sizeOf ws < sizeOf (w :: ws) := by
          simp only [List.cons.sizeOf_spec]; omega
        have ha := (ih (sizeOf w) (by omega)).1 w (le_refl _)
        have hb := (ih (sizeOf ws) (by omega)).2 ws (le_refl _)
        rw [itemsNeed, itemsTail]
        simp only [List.length_cons, List.length_append]
        omega

/-! ### The envelope step is the identity on printed values -/

theorem envelopeStep_ascii {s : List Char} (ha : ∀ c ∈ s, c.toNat < 128)
    (hb : ∀ t : List Char, s ≠ 'b' :: t) : envelopeStep s = .ok s := by
  cases s with
  | nil => rfl
  | cons c1 s1 =>
    cases s1 with
    | nil =>
      have h1 : c1.utf8Size = 1 := utf8Size_of_ascii (ha c1 (by simp))
      have hlen : ¬ 3 ≤ utf8Len [c1] := by
        simp [utf8Len, h1]
      unfold envelopeStep
      rw [if_neg hlen]
    | cons c2 s2 =>
      have h1 : c1.utf8Size = 1 := utf8Size_of_ascii (ha c1 (by simp))
      have h2 : c2.utf8Size = 1 := utf8Size_of_ascii (ha c2 (by simp))
      refine envelopeStep_no_env s2 h1 h2 ?_
      rintro ⟨rfl, -⟩
      exact hb (c2 :: s2) rfl

/-! ### The round trip: parsing back a printed value -/

theorem parse_print_aux : ∀ F : Nat,
    (∀ v : DataValue, printable v = true → ∀ fuel, fuel ≤ F → needFuel v ≤ fuel →
      ∀ rest : List Char, restOkB rest = true →
      parseValue fuel (toText v ++ rest) = some (rest, v)) ∧
    (∀ vs : List DataValue, printableL vs = true → ∀ fuel, fuel ≤ F →
      itemsNeed vs ≤ fuel → ∀ r : List Char, restOkB r = true →
      parseItemsRest fuel (itemsTail vs ++ (']' :: r)) = (']' :: r, vs)) := by
  intro F
  induction F with
  | zero =>
    constructor
    · intro v hp fuel hF hneed rest hrest
      have h1 := needFuel_pos v
      omega
    · intro vs hpl fuel hF hneed r hr
      have hf0 : fuel = 0 := by omega
      subst hf0
      cases vs with
      | nil => rfl
      | cons w ws =>
        rw [itemsNeed] at hneed
        omega
  | succ F ih =>
    obtain ⟨ihV, ihL⟩ := ih
    constructor
    · intro v hp fuel hF hneed rest hrest
      cases fuel with
      | zero =>
        have h1 := needFuel_pos v
        omega
      | succ f =>
        have hfF : f ≤ F := by omega
        cases v with
        | Number m =>
          cases m with
          | finite q =>
            have hq : decRep q = true := by rw [printable] at hp; exact hp
            have htn : toText (DataValue.Number (.finite q)) = ratToString q := by
              rw [toText_number, f64ToString]
            obtain ⟨c, t, hct, hw, _⟩ := toText_head _ hp
            rw [htn] at hct
            rw [htn, parseValue, hct, List.cons_append, dropWs_cons _ hw,
              ← List.cons_append, ← hct, parseNumber_print q hq rest hrest]
            simp [dropWs_restOk hrest]
          | nan => rw [printable] at hp; exact Bool.noConfusion hp
          | inf => rw [printable] at hp; exact Bool.noConfusion hp
          | neginf => rw [printable] at hp; exact Bool.noConfusion hp
        | Boolean b =>
          cases b with
          | false =>
            rw [toText_bool_false, parseValue,
              show strL "false" ++ rest = 'f' :: (strL "alse" ++ rest) from rfl,
              dropWs_cons _ (by decide),
              parseNumber_fail _ (by decide) (by decide) (by decide) (by decide),
              show ('f' :: (strL "alse" ++ rest) : List Char) =
                strL "false" ++ rest from rfl,
              parseBoolean_false]
            simp [dropWs_restOk hrest]
          | true =>
            rw [toText_bool_true, parseValue,
              show strL "true" ++ rest = 't' :: (strL "rue" ++ rest) from rfl,
              dropWs_cons _ (by decide),
              parseNumber_fail _ (by decide) (by decide) (by decide) (by decide),
              show ('t' :: (strL "rue" ++ rest) : List Char) =
                strL "true" ++ rest from rfl,
              parseBoolean_true]
            simp [dropWs_restOk hrest]
        | List l =>
          cases l with
          | nil =>
            rw [toText_list_nil, parseValue,
              show (['[', ']'] : List Char) ++ rest = '[' :: (']' :: rest) from rfl,
              dropWs_cons _ (by decide),
              parseNumber_fail _ (by decide) (by decide) (by decide) (by decide),
              parseBoolean_fail _ (by decide) (by decide),
              parseStringLit_fail _ (by decide)]
            simp [parseValue_rbrack, dropWs_restOk hrest]
          | cons v vs =>
            have hp2 : printable v = true ∧ printableL vs = true := by
              rw [printable, printableL, Bool.and_eq_true] at hp
              exact hp
            rw [needFuel] at hneed
            have hmax : needFuel v ≤ f ∧ itemsNeed vs ≤ f :=
              Nat.max_le.mp (by omega)
            rw [toText_list_cons, parseValue, List.cons_append,
              dropWs_cons _ (by decide),
              parseNumber_fail _ (by decide) (by decide) (by decide) (by decide),
              parseBoolean_fail _ (by decide) (by decide),
              parseStringLit_fail _ (by decide),
              show ((toText v ++ itemsTail vs) ++ [']']) ++ rest =
                toText v ++ (itemsTail vs ++ (']' :: rest)) from by simp]
            have hv := ihV v hp2.1 f hfF hmax.1 (itemsTail vs ++ (']' :: rest))
              (restOk_itemsTail vs rest)
            have hl := ihL vs hp2.2 f hfF hmax.2 rest hrest
            simp [hv, hl, dropWs_restOk hrest]
        | Tuple a b =>
          have hp2 : printable a = true ∧ printable b = true := by
            rw [printable, Bool.and_eq_true] at hp
            exact hp
          rw [needFuel] at hneed
          have hmax : needFuel a ≤ f ∧ needFuel b ≤ f :=
            Nat.max_le.mp (by omega)
          rw [toText_tuple, parseValue, List.cons_append,
            dropWs_cons _ (by decide),
            parseNumber_fail _ (by decide) (by decide) (by decide) (by decide),
            parseBoolean_fail _ (by decide) (by decide),
            parseStringLit_fail _ (by decide),
            parseDict_fail f _ (by decide),
            show (toText a ++ ',' :: (toText b ++ [')'])) ++ rest =
              toText a ++ (',' :: (toText b ++ (')' :: rest))) from by simp]
          have hva := ihV a hp2.1 f hfF hmax.1 (',' :: (toText b ++ (')' :: rest))) rfl
          have hvb := ihV b hp2.2 f hfF hmax.2 (')' :: rest) rfl
          simp [hva, hvb, dropWs_restOk hrest]
        | None => rw [printable] at hp; exact Bool.noConfusion hp
        | String s => rw [printable] at hp; exact Bool.noConfusion hp
        | Dict d => rw [printable] at hp; exact Bool.noConfusion hp
        | Binary bb => rw [printable] at hp; exact Bool.noConfusion hp
    · intro vs hpl fuel hF hneed r hr
      cases vs with
      | nil =>
        cases fuel with
        | zero => rfl
        | succ f =>
          rw [show itemsTail [] ++ (']' :: r) = ']' :: r from rfl, parseItemsRest]
          simp
      | cons w ws =>
        cases fuel with
        | zero =>
          rw [itemsNeed] at hneed
          omega
        | succ f =>
          have hfF : f ≤ F := by omega
          have hp2 : printable w = true ∧ printableL ws = true := by
            rw [printableL, Bool.and_eq_true] at hpl
            exact hpl
          rw [itemsNeed] at hneed
          have hmax : needFuel w ≤ f ∧ itemsNeed ws ≤ f :=
            Nat.max_le.mp (by omega)
          rw [show itemsTail (w :: ws) ++ (']' :: r) =
              ',' :: (toText w ++ (itemsTail ws ++ (']' :: r))) from by
                rw [itemsTail]; simp,
            parseItemsRest]
          have hv := ihV w hp2.1 f hfF hmax.1 (itemsTail ws ++ (']' :: r))
            (restOk_itemsTail ws r)
          have hl := ihL ws hp2.2 f hfF hmax.2 r hr
          simp [hv, hl]

theorem parse_print (v : DataValue) (hp : printable v = true) (fuel : Nat)
    (hneed : needFuel v ≤ fuel) (rest : List Char) (hrest : restOkB rest = true) :
    parseValue fuel (toText v ++ rest) = some (rest, v) :=
  (parse_print_aux fuel).1 v hp fuel (le_refl _) hneed rest hrest

theorem needFuel_le_len (v : DataValue) : needFuel v ≤ (toText v).length :=
  (needFuel_le_aux (sizeOf v)).1 v (le_refl _)

/-- C2 (amended): every value built from finite Numbers, Booleans, Lists and
Tuples survives the print-then-parse round trip. -/
theorem c2_parse_print_roundtrip (v : DataValue) (hp : printable v = true) :
    fromStr (toText v) = .ok v := by
  have henv : envelopeStep (toText v) = .ok (toText v) := by
    refine envelopeStep_ascii
      (fun c hc => (toText_ascii_aux (sizeOf v)).1 v (le_refl _) hp c hc) ?_
    intro t ht
    obtain ⟨c, t0, hct, _, hb⟩ := toText_head v hp
    rw [hct] at ht
    injection ht with h1 h2
    exact hb h1
  have hparse : parseValue ((toText v).length + 1) (toText v) = some ([], v) := by
    have h := parse_print v hp ((toText v).length + 1)
      (le_trans (needFuel_le_len v) (by omega)) [] rfl
    rwa [List.append_nil] at h
  simp only [fromStr, henv, hparse]

/-- C2 witness. -/
theorem c2_witness :
    printable (.List [.Number (.finite 1),
      .Tuple (.Boolean true) (.Number (.finite 1))]) = true ∧
    fromStr (toText (.List [.Number (.finite 1),
      .Tuple (.Boolean true) (.Number (.finite 1))])) =
      .ok (.List [.Number (.finite 1),
        .Tuple (.Boolean true) (.Number (.finite 1))]) :=
  ⟨by simp only [printable, printableL, Bool.and_true, Bool.true_and]; decide,
   c2_parse_print_roundtrip _
     (by simp only [printable, printableL, Bool.and_true, Bool.true_and]; decide)⟩

end Doson
